/-
  Verification of the tinydb storage/transaction engine specification
  against a shallow embedding of the source code.

  Each section embeds one component of the repository (translated from the
  Rust source) and proves or refutes the frozen claims about it.
-/
import Mathlib

namespace TinyDB

/-! ## Byte-level primitives

The repository stores 32-bit integers little-endian (`i32::to_le_bytes` /
`i32::from_le_bytes` in `src/page.rs`).  Bytes are modelled as `Nat` values
(< 256 whenever produced by the encoder); pages are `List Nat`.
-/

/-- Little-endian 4-byte encoding of an `i32` value (two's complement),
modelling `i32::to_le_bytes`. -/
def le4 (v : Int) : List Nat :=
  let m := (v % (2 : Int) ^ 32).toNat
  [m % 256, m / 256 % 256, m / 256 ^ 2 % 256, m / 256 ^ 3 % 256]

/-- Reassemble a little-endian byte list into a natural number. -/
def natOfLe (l : List Nat) : Nat :=
  l.foldr (fun b acc => b + 256 * acc) 0

/-- Interpret a natural number below `2^32` as an `i32` value
(two's complement), modelling `i32::from_le_bytes`. -/
def i32OfNat (n : Nat) : Int :=
  if n < 2 ^ 31 then (n : Int) else (n : Int) - 2 ^ 32

/-- The `as usize` cast applied to an `i32` value on a 64-bit target
(sign extension). -/
def usizeOfI32 (v : Int) : Nat :=
  (v % (2 : Int) ^ 64).toNat

/-- The `as u8` cast applied to an `i32` value (truncation). -/
def u8OfI32 (v : Int) : Nat :=
  (v % (2 : Int) ^ 256).toNat % 256

@[simp] theorem le4_length (v : Int) : (le4 v).length = 4 := rfl

theorem natOfLe_le4 (v : Int) : natOfLe (le4 v) = (v % (2 : Int) ^ 32).toNat := by
  unfold le4 natOfLe
  simp only [List.foldr]
  omega

theorem i32OfNat_natOfLe_le4 {v : Int} (h0 : -(2 : Int) ^ 31 ≤ v) (h1 : v < 2 ^ 31) :
    i32OfNat (natOfLe (le4 v)) = v := by
  rw [natOfLe_le4]
  unfold i32OfNat
  rcases le_or_lt 0 v with hv | hv
  · have : v % (2 : Int) ^ 32 = v := Int.emod_eq_of_lt hv (by omega)
    rw [this]
    split <;> omega
  · have : v % (2 : Int) ^ 32 = v + 2 ^ 32 := by omega
    rw [this]
    split <;> omega

/-! ## Page (`src/page.rs`)

`Page` wraps `Cursor<Vec<u8>>`.  Reads use `read_exact(..).unwrap()`:
a read that does not fit entirely in the buffer fails and the `unwrap`
panics (modelled by `none`).  Writes use `write_all`, which for a
`Cursor<Vec<u8>>` is infallible: writing past the end zero-pads up to the
position and then grows the vector.
-/

structure Page where
  data : List Nat
deriving Repr, DecidableEq

/-- `Cursor<Vec<u8>>::write_all` at position `pos`: overwrite in place,
zero-padding and growing the vector as needed. -/
def writeAll (d : List Nat) (pos : Nat) (bs : List Nat) : List Nat :=
  d.take pos ++ List.replicate (pos - d.length) 0 ++ bs ++ d.drop (pos + bs.length)

/-- `Cursor::read_exact` of `n` bytes at position `pos`: fails (`none`)
unless the `n` bytes lie entirely inside the buffer. -/
def readExact (d : List Nat) (pos n : Nat) : Option (List Nat) :=
  if pos + n ≤ d.length then some ((d.drop pos).take n) else none

/-- `Page::new(block_size)`: a zero-filled buffer. -/
def Page.new (blockSize : Nat) : Page := ⟨List.replicate blockSize 0⟩

/-- `Page::get_int`: read 4 bytes at `offset`, little-endian
(panic — `none` — when they do not fit in the buffer). -/
def Page.get_int (p : Page) (offset : Nat) : Option Int :=
  (readExact p.data offset 4).map fun bs => i32OfNat (natOfLe bs)

/-- `Page::set_int`: write the 4 little-endian bytes of `value` at `offset`
(infallible; grows the buffer when out of range). -/
def Page.set_int (p : Page) (offset : Nat) (value : Int) : Page :=
  ⟨writeAll p.data offset (le4 value)⟩

/-- `Page::set_bytes`: write a 4-byte length followed by the payload. -/
def Page.set_bytes (p : Page) (offset : Nat) (bs : List Nat) : Page :=
  let p1 := p.set_int offset (bs.length : Int)
  ⟨writeAll p1.data (offset + 4) bs⟩

/-- `Page::get_bytes`: read the 4-byte length at `offset`, then that many
bytes (`length as usize` sign-extends a negative length). -/
def Page.get_bytes (p : Page) (offset : Nat) : Option (List Nat) := do
  let len ← p.get_int offset
  readExact p.data (offset + 4) (usizeOfI32 len)

/-- `Page::contents`. -/
def Page.contents (p : Page) : List Nat := p.data

/-- `Page::max_length`. -/
def Page.max_length (strLen : Nat) : Nat := 4 + strLen

theorem writeAll_length (d : List Nat) (pos : Nat) (bs : List Nat) :
    (writeAll d pos bs).length = max d.length (pos + bs.length) := by
  unfold writeAll
  simp [List.length_append, List.length_take, List.length_replicate, List.length_drop]
  omega

/-- Writing entirely inside the buffer is a splice. -/
theorem writeAll_in_range {d : List Nat} {pos : Nat} {bs : List Nat}
    (h : pos + bs.length ≤ d.length) :
    writeAll d pos bs = d.take pos ++ bs ++ d.drop (pos + bs.length) := by
  unfold writeAll
  have : pos - d.length = 0 := by omega
  simp [this]

/-- **C8, counterexample.** The claim states that a `set_int` whose bytes do
not fit within the `block_size`-byte buffer panics rather than silently
succeeding.  In the source, `Page::set_int` uses `write_all` on a
`Cursor<Vec<u8>>`, which is infallible: on an 8-byte page, `set_int` at
offset 6 silently succeeds and grows the buffer to 10 bytes. -/
theorem page_set_int_out_of_range_silently_succeeds :
    ((Page.new 8).set_int 6 1).data = [0, 0, 0, 0, 0, 0, 1, 0, 0, 0] ∧
    ((Page.new 8).set_int 6 1).data.length = 10 ∧ ¬ (10 = 8) := by
  refine ⟨?_, by decide, by decide⟩
  decide

/-- **C8, amended.** Out-of-range *reads* (`get_int`, `get_bytes`) panic
(`read_exact(..).unwrap()`), but out-of-range *writes* (`set_int`,
`set_bytes`) do not: they silently succeed and grow the underlying buffer
to cover the written bytes. -/
theorem page_out_of_range_reads_panic_writes_grow
    (d : List Nat) (off : Nat) (v : Int) (bs : List Nat) :
    ((Page.mk d).get_int off = none ↔ d.length < off + 4) ∧
    (d.length < off + 4 → (Page.mk d).get_bytes off = none) ∧
    (((Page.mk d).set_int off v).data.length = max d.length (off + 4)) ∧
    (((Page.mk d).set_bytes off bs).data.length = max d.length (off + 4 + bs.length)) := by
  refine ⟨?_, ?_, ?_, ?_⟩
  · have hd : (Page.mk d).data = d := rfl
    unfold Page.get_int readExact
    rw [hd]
    split <;> simp <;> omega
  · intro h
    unfold Page.get_bytes Page.get_int readExact
    have : ¬ (off + 4 ≤ d.length) := by omega
    simp [this]
  · unfold Page.set_int
    rw [writeAll_length]
    simp
  · unfold Page.set_bytes Page.set_int
    simp only [writeAll_length, le4_length]
    omega

/-- Witness for the C8 amended theorem at a concrete page and offset. -/
theorem page_out_of_range_witness :
    (((Page.mk (List.replicate 8 0)).get_int 6 = none ↔
        (List.replicate (α := Nat) 8 0).length < 6 + 4) ∧
      ((List.replicate (α := Nat) 8 0).length < 6 + 4 →
        (Page.mk (List.replicate 8 0)).get_bytes 6 = none) ∧
      (((Page.mk (List.replicate 8 0)).set_int 6 1).data.length =
        max (List.replicate (α := Nat) 8 0).length (6 + 4)) ∧
      (((Page.mk (List.replicate 8 0)).set_bytes 6 [1, 2]).data.length =
        max (List.replicate (α := Nat) 8 0).length (6 + 4 + [1, 2].length))) :=
  page_out_of_range_reads_panic_writes_grow (List.replicate 8 0) 6 1 [1, 2]

/-! ## BlockId (`src/file/block.rs`)

Equality and hashing of `BlockId` use only `(filename, num)`; the source's
`id` (uuid) field takes no part in comparison and is omitted here.
-/

structure BlockId where
  filename : String
  num : Int
deriving DecidableEq, Repr

/-! ## LockTable (`src/tx/concurrency/lock_table.rs`)

The lock table maps a `BlockId` to an `i32` counter (`HashMap<BlockId, i32>`,
absent modelled as 0, matching `get_lock_value`).  The wait loops in
`s_lock`/`x_lock` sleep while the conflicting condition holds; in a
sequential execution (the table unchanged during the wait) a conflicting
call exits the loop by timeout and hits the `bail!("Deadlock")`, leaving
the table unchanged.
-/

def LockTable := BlockId → Int

def LockTable.empty : LockTable := fun _ => 0

/-- `LockTable::get_lock_value`: the counter, 0 when absent. -/
def LockTable.get_lock_value (t : LockTable) (b : BlockId) : Int := t b

/-- `HashMap::insert` (also used to model `remove` via value 0). -/
def LockTable.update (t : LockTable) (b : BlockId) (v : Int) : LockTable :=
  fun b' => if b' = b then v else t b'

/-- `LockTable::has_x_lock`: counter negative. -/
def LockTable.has_x_lock (t : LockTable) (b : BlockId) : Bool :=
  t.get_lock_value b < 0

/-- `LockTable::has_other_s_lock`: counter greater than 1. -/
def LockTable.has_other_s_lock (t : LockTable) (b : BlockId) : Bool :=
  t.get_lock_value b > 1

/-- `LockTable::s_lock`: bail on a held X lock (timeout), otherwise
increment the counter. -/
def LockTable.s_lock (t : LockTable) (b : BlockId) : Except String LockTable :=
  if t.has_x_lock b then .error "Deadlock"
  else .ok (t.update b (t.get_lock_value b + 1))

/-- `LockTable::x_lock`: bail when another shared holder exists (timeout),
otherwise set the counter to -1. -/
def LockTable.x_lock (t : LockTable) (b : BlockId) : Except String LockTable :=
  if t.has_other_s_lock b then .error "Deadlock"
  else .ok (t.update b (-1))

/-- `LockTable::unlock`: decrement a multi-holder counter, otherwise remove
the entry. -/
def LockTable.unlock (t : LockTable) (b : BlockId) : LockTable :=
  let value := t.get_lock_value b
  if value > 1 then t.update b (value - 1) else t.update b 0

inductive LockOp where
  | sLock (b : BlockId)
  | xLock (b : BlockId)
  | unlock (b : BlockId)

/-- Apply one lock-table operation; a call that bails leaves the table
unchanged. -/
def LockTable.applyOp (t : LockTable) (op : LockOp) : LockTable :=
  match op with
  | .sLock b => match t.s_lock b with | .ok t' => t' | .error _ => t
  | .xLock b => match t.x_lock b with | .ok t' => t' | .error _ => t
  | .unlock b => t.unlock b

def LockTable.applyOps (t : LockTable) (ops : List LockOp) : LockTable :=
  ops.foldl LockTable.applyOp t

theorem LockTable.applyOp_ge_neg_one (t : LockTable) (op : LockOp)
    (h : ∀ b, -1 ≤ t.get_lock_value b) : ∀ b, -1 ≤ (t.applyOp op).get_lock_value b := by
  have h' : ∀ b, -1 ≤ t b := h
  intro b
  cases op with
  | sLock b' =>
    simp only [LockTable.applyOp, LockTable.s_lock, LockTable.has_x_lock,
      LockTable.get_lock_value, LockTable.update]
    by_cases hx : t b' < 0
    · simp [hx]; exact h' b
    · simp [hx]
      simp only [LockTable.update]
      split
      · omega
      · exact h' b
  | xLock b' =>
    simp only [LockTable.applyOp, LockTable.x_lock, LockTable.has_other_s_lock,
      LockTable.get_lock_value, LockTable.update]
    by_cases hx : t b' > 1
    · simp [hx]; exact h' b
    · simp [hx]
      simp only [LockTable.update]
      split
      · omega
      · exact h' b
  | unlock b' =>
    simp only [LockTable.applyOp, LockTable.unlock, LockTable.get_lock_value,
      LockTable.update]
    by_cases hgt : t b' > 1
    · simp [hgt]
      simp only [LockTable.update]
      split
      · omega
      · exact h' b
    · simp [hgt]
      simp only [LockTable.update]
      split
      · omega
      · exact h' b

/-- **C6.** Starting from the empty lock table, after any sequence of
`s_lock`, `x_lock` and `unlock` operations the counter of every block is
absent/0, -1 (one exclusive holder), or a positive number of shared
holders — never any other value (such as -2, or -1 incremented to 0 by a
shared acquisition). -/
theorem lock_table_counter_always_valid (ops : List LockOp) (b : BlockId) :
    (LockTable.empty.applyOps ops).get_lock_value b = 0 ∨
    (LockTable.empty.applyOps ops).get_lock_value b = -1 ∨
    0 < (LockTable.empty.applyOps ops).get_lock_value b := by
  have main : ∀ (ops : List LockOp) (t : LockTable),
      (∀ b, -1 ≤ t.get_lock_value b) → ∀ b, -1 ≤ (t.applyOps ops).get_lock_value b := by
    intro ops
    induction ops with
    | nil => intro t h b; exact h b
    | cons op rest ih =>
      intro t h b
      exact ih (t.applyOp op) (LockTable.applyOp_ge_neg_one t op h) b
  have h := main ops LockTable.empty (fun _ => by simp [LockTable.empty, LockTable.get_lock_value]) b
  omega

/-! ## ConcurrencyManager (`src/tx/concurrency/concurrency_manager.rs`)

Per-transaction.  `locks : HashMap<BlockId, String>` (values `"S"`/`"X"`)
is modelled as an association list with at most one entry per block.
The condvar wait loops are again given their sequential semantics: a
conflicting condition that holds on entry still holds at the timeout check
and the call bails with `Lock timeout`.
-/

structure ConcurrencyManager where
  locks : List (BlockId × String)

def ConcurrencyManager.new : ConcurrencyManager := ⟨[]⟩

/-- `HashMap::insert` on the association list. -/
def insertLock (l : List (BlockId × String)) (b : BlockId) (v : String) :
    List (BlockId × String) :=
  (b, v) :: l.filter (fun p => p.1 ≠ b)

/-- `self.locks.get(block)`. -/
def ConcurrencyManager.lockType (cm : ConcurrencyManager) (b : BlockId) : Option String :=
  (cm.locks.find? (fun p => p.1 = b)).map (·.2)

/-- `ConcurrencyManager::has_x_lock`. -/
def ConcurrencyManager.has_x_lock (cm : ConcurrencyManager) (b : BlockId) : Bool :=
  match cm.lockType b with
  | none => false
  | some t => t = "X"

/-- `ConcurrencyManager::s_lock`: no-op when this transaction already holds
any lock on the block; otherwise wait out an X conflict (bail on timeout),
take the table's S lock and record `"S"`. -/
def ConcurrencyManager.s_lock (cm : ConcurrencyManager) (t : LockTable) (b : BlockId) :
    Except String (ConcurrencyManager × LockTable) :=
  if (cm.lockType b).isSome then .ok (cm, t)
  else if t.has_x_lock b then .error "Lock timeout"
  else match t.s_lock b with
    | .error e => .error e
    | .ok t' => .ok (⟨insertLock cm.locks b "S"⟩, t')

/-- `ConcurrencyManager::x_lock`: no-op when this transaction already holds
the X lock; otherwise acquire S first, wait out other shared holders (bail
on timeout), take the table's X lock and record `"X"`. -/
def ConcurrencyManager.x_lock (cm : ConcurrencyManager) (t : LockTable) (b : BlockId) :
    Except String (ConcurrencyManager × LockTable) :=
  if cm.has_x_lock b then .ok (cm, t)
  else match cm.s_lock t b with
    | .error e => .error e
    | .ok (cm, t) =>
      if t.has_other_s_lock b then .error "Lock timeout"
      else match t.x_lock b with
        | .error e => .error e
        | .ok t' => .ok (⟨insertLock cm.locks b "X"⟩, t')

/-- `ConcurrencyManager::release`: unlock every block this transaction
holds, then clear the map. -/
def ConcurrencyManager.release (cm : ConcurrencyManager) (t : LockTable) :
    ConcurrencyManager × LockTable :=
  (⟨[]⟩, cm.locks.foldl (fun t p => t.unlock p.1) t)

inductive CmOp where
  | s (b : BlockId)
  | x (b : BlockId)

/-- Run a lock acquisition of this transaction; a call that bails leaves
both the manager and the table unchanged (the transaction would abort). -/
def ConcurrencyManager.applyOp (st : ConcurrencyManager × LockTable) (op : CmOp) :
    ConcurrencyManager × LockTable :=
  match op with
  | .s b => match st.1.s_lock st.2 b with | .ok st' => st' | .error _ => st
  | .x b => match st.1.x_lock st.2 b with | .ok st' => st' | .error _ => st

def ConcurrencyManager.applyOps (st : ConcurrencyManager × LockTable) (ops : List CmOp) :
    ConcurrencyManager × LockTable :=
  ops.foldl ConcurrencyManager.applyOp st

/-- The per-block correspondence between one transaction's private lock map
and the shared table, when no other transaction holds locks. -/
def cmInv (st : ConcurrencyManager × LockTable) : Prop :=
  ∀ b, (st.1.lockType b = none → st.2.get_lock_value b = 0) ∧
    (st.1.lockType b = some "S" → st.2.get_lock_value b = 1) ∧
    (∀ s, st.1.lockType b = some s → s = "S" ∨ s = "X") ∧
    (st.1.lockType b = some "X" → st.2.get_lock_value b = -1)

theorem find?_filter_ne {α β : Type} [DecidableEq α] (l : List (α × β)) (b b' : α) (h : b' ≠ b) :
    (l.filter (fun p => p.1 ≠ b)).find? (fun p => p.1 = b') =
      l.find? (fun p => p.1 = b') := by
  induction l with
  | nil => rfl
  | cons q rest ih =>
    by_cases hq : q.1 = b
    · rw [List.filter_cons_of_neg (by simp [hq])]
      rw [List.find?_cons_of_neg _ (by simp [hq]; exact fun hh => (h hh.symm).elim)]
      exact ih
    · rw [List.filter_cons_of_pos (by simpa using hq)]
      by_cases hb' : q.1 = b'
      · rw [List.find?_cons_of_pos _ (by simpa using hb'),
          List.find?_cons_of_pos _ (by simpa using hb')]
      · rw [List.find?_cons_of_neg _ (by simpa using hb'),
          List.find?_cons_of_neg _ (by simpa using hb')]
        exact ih

theorem lockType_insert (l : List (BlockId × String)) (b b' : BlockId) (v : String) :
    (ConcurrencyManager.mk (insertLock l b v)).lockType b' =
      if b' = b then some v else (ConcurrencyManager.mk l).lockType b' := by
  by_cases h : b' = b
  · subst h
    rw [if_pos rfl]
    unfold ConcurrencyManager.lockType insertLock
    dsimp only
    rw [List.find?_cons_of_pos _ (by simp)]
    rfl
  · rw [if_neg h]
    unfold ConcurrencyManager.lockType insertLock
    dsimp only
    rw [List.find?_cons_of_neg _ (by simp; exact fun hh => (h hh.symm).elim)]
    rw [find?_filter_ne l b b' h]

theorem get_lock_value_update (t : LockTable) (b b' : BlockId) (v : Int) :
    (t.update b v).get_lock_value b' = if b' = b then v else t.get_lock_value b' := rfl

theorem ConcurrencyManager.s_lock_ok (cm : ConcurrencyManager) (t : LockTable) (b : BlockId)
    (h : cmInv (cm, t)) :
    ∃ st', cm.s_lock t b = .ok st' ∧ cmInv st' ∧ (st'.1.lockType b).isSome := by
  unfold ConcurrencyManager.s_lock
  by_cases hsome : (cm.lockType b).isSome
  · exact ⟨(cm, t), by simp [hsome], h, hsome⟩
  · have hnone : cm.lockType b = none := by
      cases hval : cm.lockType b
      · rfl
      · rw [hval] at hsome; simp at hsome
    have hval0 : t.get_lock_value b = 0 := (h b).1 hnone
    have hx : t.has_x_lock b = false := by
      unfold LockTable.has_x_lock
      simp [hval0]
    have hsl : t.s_lock b = .ok (t.update b (t.get_lock_value b + 1)) := by
      unfold LockTable.s_lock
      simp [hx]
    refine ⟨(⟨insertLock cm.locks b "S"⟩, t.update b (t.get_lock_value b + 1)),
      by simp [hsome, hx, hsl], ?_, ?_⟩
    · intro b'
      rw [show (⟨insertLock cm.locks b "S"⟩ : ConcurrencyManager) =
          ConcurrencyManager.mk (insertLock cm.locks b "S") from rfl]
      rw [lockType_insert]
      by_cases hb : b' = b
      · subst hb
        simp [get_lock_value_update, hval0]
      · simp [hb, get_lock_value_update]
        have := h b'
        exact ⟨this.1, this.2.1, this.2.2.1, this.2.2.2⟩
    · rw [show (⟨insertLock cm.locks b "S"⟩ : ConcurrencyManager) =
          ConcurrencyManager.mk (insertLock cm.locks b "S") from rfl]
      rw [lockType_insert]
      simp

theorem ConcurrencyManager.x_lock_ok (cm : ConcurrencyManager) (t : LockTable) (b : BlockId)
    (h : cmInv (cm, t)) :
    ∃ st', cm.x_lock t b = .ok st' ∧ cmInv st' := by
  unfold ConcurrencyManager.x_lock
  by_cases hxl : cm.has_x_lock b
  · exact ⟨(cm, t), by simp [hxl], h⟩
  · obtain ⟨⟨cm1, t1⟩, hs, hinv1, hsome1⟩ := ConcurrencyManager.s_lock_ok cm t b h
    obtain ⟨s, hvs⟩ := Option.isSome_iff_exists.mp hsome1
    have hsx : s = "S" ∨ s = "X" := (hinv1 b).2.2.1 s hvs
    have hval1 : t1.get_lock_value b = 1 ∨ t1.get_lock_value b = -1 := by
      rcases hsx with rfl | rfl
      · exact Or.inl ((hinv1 b).2.1 hvs)
      · exact Or.inr ((hinv1 b).2.2.2 hvs)
    have hother : t1.has_other_s_lock b = false := by
      unfold LockTable.has_other_s_lock
      rcases hval1 with hv | hv <;> simp [hv]
    have hxlk : t1.x_lock b = .ok (t1.update b (-1)) := by
      unfold LockTable.x_lock
      simp [hother]
    refine ⟨(⟨insertLock cm1.locks b "X"⟩, t1.update b (-1)),
      by simp [hxl, hs, hother, hxlk], ?_⟩
    intro b'
    rw [show (⟨insertLock cm1.locks b "X"⟩ : ConcurrencyManager) =
        ConcurrencyManager.mk (insertLock cm1.locks b "X") from rfl]
    rw [lockType_insert]
    by_cases hb : b' = b
    · subst hb
      simp [get_lock_value_update]
    · simp [hb, get_lock_value_update]
      have := hinv1 b'
      exact ⟨this.1, this.2.1, this.2.2.1, this.2.2.2⟩

theorem ConcurrencyManager.applyOps_inv (ops : List CmOp)
    (st : ConcurrencyManager × LockTable) (h : cmInv st) :
    cmInv (ConcurrencyManager.applyOps st ops) := by
  induction ops generalizing st with
  | nil => exact h
  | cons op rest ih =>
    refine ih (ConcurrencyManager.applyOp st op) ?_
    cases op with
    | s b =>
      obtain ⟨st', hok, hinv', _⟩ := ConcurrencyManager.s_lock_ok st.1 st.2 b h
      show cmInv (match st.1.s_lock st.2 b with | .ok st' => st' | .error _ => st)
      rw [hok]
      exact hinv'
    | x b =>
      obtain ⟨st', hok, hinv'⟩ := ConcurrencyManager.x_lock_ok st.1 st.2 b h
      show cmInv (match st.1.x_lock st.2 b with | .ok st' => st' | .error _ => st)
      rw [hok]
      exact hinv'

theorem release_fold_zero (l : List (BlockId × String)) (t : LockTable)
    (h1 : ∀ p ∈ l, t.get_lock_value p.1 ≤ 1)
    (h2 : ∀ b, (∀ p ∈ l, p.1 ≠ b) → t.get_lock_value b = 0) :
    ∀ b, (l.foldl (fun t p => t.unlock p.1) t).get_lock_value b = 0 := by
  induction l generalizing t with
  | nil =>
    intro b
    exact h2 b (by intro p hp; cases hp)
  | cons q rest ih =>
    intro b
    have hq : t.get_lock_value q.1 ≤ 1 := h1 q (by simp)
    have hunlock : t.unlock q.1 = t.update q.1 0 := by
      unfold LockTable.unlock
      simp only
      rw [if_neg (by omega)]
    simp only [List.foldl]
    rw [hunlock]
    refine ih (t.update q.1 0) ?_ ?_ b
    · intro p hp
      rw [get_lock_value_update]
      split
      · omega
      · exact h1 p (List.mem_cons_of_mem q hp)
    · intro b' hb'
      rw [get_lock_value_update]
      split
      · omega
      · refine h2 b' ?_
        intro p hp
        rcases List.mem_cons.mp hp with rfl | hmem
        · next hne => exact fun hc => hne (hc ▸ rfl)
        · exact hb' p hmem

/-- **C7.** Within one transaction's concurrency manager: a repeated
`s_lock` on a block the transaction already holds a lock on, and a repeated
`x_lock` on a block it already holds the X lock on, are no-ops (manager and
lock table both unchanged); consequently, starting from an empty lock
table, after any sequence of `s_lock`/`x_lock` calls by the transaction a
single `release` brings every block's counter back to 0. -/
theorem concurrency_manager_repeated_locks_idempotent :
    (∀ (cm : ConcurrencyManager) (t : LockTable) (b : BlockId),
        (cm.lockType b).isSome → cm.s_lock t b = .ok (cm, t)) ∧
    (∀ (cm : ConcurrencyManager) (t : LockTable) (b : BlockId),
        cm.lockType b = some "X" → cm.x_lock t b = .ok (cm, t)) ∧
    (∀ (ops : List CmOp) (b : BlockId),
        ((ConcurrencyManager.applyOps (ConcurrencyManager.new, LockTable.empty) ops).1.release
          (ConcurrencyManager.applyOps (ConcurrencyManager.new, LockTable.empty) ops).2).2.get_lock_value
          b = 0) := by
  refine ⟨?_, ?_, ?_⟩
  · intro cm t b h
    unfold ConcurrencyManager.s_lock
    simp [h]
  · intro cm t b h
    unfold ConcurrencyManager.x_lock
    have : cm.has_x_lock b = true := by
      unfold ConcurrencyManager.has_x_lock
      simp [h]
    simp [this]
  · intro ops b
    have hinit : cmInv (ConcurrencyManager.new, LockTable.empty) := by
      intro b'
      refine ⟨fun _ => rfl, fun hc => ?_, fun s hc => ?_, fun hc => ?_⟩
      · simp [ConcurrencyManager.new, ConcurrencyManager.lockType, List.find?] at hc
      · simp [ConcurrencyManager.new, ConcurrencyManager.lockType, List.find?] at hc
      · simp [ConcurrencyManager.new, ConcurrencyManager.lockType, List.find?] at hc
    have hinv := ConcurrencyManager.applyOps_inv ops _ hinit
    set st := ConcurrencyManager.applyOps (ConcurrencyManager.new, LockTable.empty) ops with hst
    unfold ConcurrencyManager.release
    refine release_fold_zero st.1.locks st.2 ?_ ?_ b
    · intro p hp
      have hfind : (st.1.locks.find? (fun q => q.1 = p.1)).isSome := by
        rw [List.find?_isSome]
        exact ⟨p, hp, by simp⟩
      obtain ⟨q, hq⟩ := Option.isSome_iff_exists.mp hfind
      have hlt : st.1.lockType p.1 = some q.2 := by
        unfold ConcurrencyManager.lockType
        rw [hq]
        rfl
      rcases (hinv p.1).2.2.1 q.2 hlt with hS | hX
      · have := (hinv p.1).2.1 (hS ▸ hlt)
        omega
      · have := (hinv p.1).2.2.2 (hX ▸ hlt)
        omega
    · intro b' hb'
      refine (hinv b').1 ?_
      unfold ConcurrencyManager.lockType
      rw [List.find?_eq_none.mpr ?_]
      · rfl
      · intro p hp
        simp
        exact hb' p hp

/-- Witness for the C7 theorem: a manager holding S on a block makes a
second `s_lock` a no-op, one holding X makes a second `x_lock` a no-op, and
an S-then-X history followed by one `release` leaves the counter at 0. -/
theorem concurrency_manager_idempotent_witness :
    (ConcurrencyManager.mk [(⟨"f", 0⟩, "S")]).s_lock LockTable.empty ⟨"f", 0⟩ =
        .ok (ConcurrencyManager.mk [(⟨"f", 0⟩, "S")], LockTable.empty) ∧
    (ConcurrencyManager.mk [(⟨"f", 0⟩, "X")]).x_lock LockTable.empty ⟨"f", 0⟩ =
        .ok (ConcurrencyManager.mk [(⟨"f", 0⟩, "X")], LockTable.empty) ∧
    ((ConcurrencyManager.applyOps (ConcurrencyManager.new, LockTable.empty)
          [.s ⟨"f", 0⟩, .x ⟨"f", 0⟩, .x ⟨"f", 0⟩]).1.release
        (ConcurrencyManager.applyOps (ConcurrencyManager.new, LockTable.empty)
          [.s ⟨"f", 0⟩, .x ⟨"f", 0⟩, .x ⟨"f", 0⟩]).2).2.get_lock_value ⟨"f", 0⟩ = 0 := by
  refine ⟨?_, ?_, ?_⟩
  · exact concurrency_manager_repeated_locks_idempotent.1 _ _ _ (by
      simp [ConcurrencyManager.lockType, List.find?])
  · exact concurrency_manager_repeated_locks_idempotent.2.1 _ _ _ (by
      simp [ConcurrencyManager.lockType, List.find?])
  · exact concurrency_manager_repeated_locks_idempotent.2.2 _ _

/-! ## Schema and Layout (`src/record/schema.rs`, `src/record/layout.rs`)

`HashMap`s keyed by field name are modelled as association lists with
`insert` placing the new entry first and dropping older entries for the
same key.
-/

def insertAssoc {α β : Type} [DecidableEq α] (l : List (α × β)) (k : α) (v : β) :
    List (α × β) :=
  (k, v) :: l.filter (fun p => p.1 ≠ k)

def lookupAssoc {α β : Type} [DecidableEq α] (l : List (α × β)) (k : α) : Option β :=
  (l.find? (fun p => p.1 = k)).map (·.2)

theorem lookupAssoc_insert {α β : Type} [DecidableEq α]
    (l : List (α × β)) (k k' : α) (v : β) :
    lookupAssoc (insertAssoc l k v) k' = if k' = k then some v else lookupAssoc l k' := by
  by_cases h : k' = k
  · subst h
    rw [if_pos rfl]
    unfold lookupAssoc insertAssoc
    rw [List.find?_cons_of_pos _ (by simp)]
    rfl
  · rw [if_neg h]
    unfold lookupAssoc insertAssoc
    rw [List.find?_cons_of_neg _ (by simp; exact fun hh => (h hh.symm).elim)]
    rw [find?_filter_ne l k k' h]

/-- Field types (`FieldTypes`); the `i32` representation tags 4 / 12 are
irrelevant to the claims and omitted. -/
inductive FieldTypes where
  | integer
  | varchar
deriving DecidableEq, Repr

/-- `FieldInfo { r#type, length }` (the Rust field `r#type` is spelled
`ftype` here). -/
structure FieldInfo where
  ftype : FieldTypes
  length : Int
deriving DecidableEq, Repr

structure Schema where
  fields : List String
  info : List (String × FieldInfo)
deriving Repr

/-- `Schema::add_field`. -/
def Schema.add_field (s : Schema) (fieldName : String) (t : FieldTypes) (length : Int) :
    Schema :=
  ⟨s.fields ++ [fieldName], insertAssoc s.info fieldName ⟨t, length⟩⟩

/-- `Schema::add_int_field` (length 0, ignored for integers). -/
def Schema.add_int_field (s : Schema) (fieldName : String) : Schema :=
  s.add_field fieldName .integer 0

/-- `Schema::add_string_field`. -/
def Schema.add_string_field (s : Schema) (fieldName : String) (length : Int) : Schema :=
  s.add_field fieldName .varchar length

/-- `Schema::type`. -/
def Schema.ftypeOf (s : Schema) (fieldName : String) : Option FieldTypes :=
  (lookupAssoc s.info fieldName).map (·.ftype)

/-- `Schema::length`. -/
def Schema.lengthOf (s : Schema) (fieldName : String) : Option Int :=
  (lookupAssoc s.info fieldName).map (·.length)

/-- `Schema::has_field`. -/
def Schema.hasField (s : Schema) (fieldName : String) : Bool :=
  (lookupAssoc s.info fieldName).isSome

/-- A schema built from `Schema::default()` by `add_field` calls in
declaration order — the only way schemas arise in the repository. -/
def Schema.ofDecls (decls : List (String × FieldTypes × Int)) : Schema :=
  decls.foldl (fun s d => s.add_field d.1 d.2.1 d.2.2) ⟨[], []⟩

structure Layout where
  schema : Schema
  offsets : List (String × Int)
  slot_size : Int

/-- `Layout::length_in_bytes`: 4 for an integer;
`Page::max_length(length as usize) as i32` for a varchar. -/
def Layout.length_in_bytes (schema : Schema) (fieldName : String) : Option Int :=
  match schema.ftypeOf fieldName with
  | none => none
  | some .integer => some 4
  | some .varchar =>
    (schema.lengthOf fieldName).map fun len =>
      i32OfNat ((Page.max_length (usizeOfI32 len) % 2 ^ 64) % 2 ^ 32)

/-- The field loop of `Layout::try_from_schema`: `pos` starts at
`I32_SIZE = 4` and each field is assigned the running position. -/
def layoutFields (schema : Schema) :
    List String → Int → List (String × Int) → Option (List (String × Int) × Int)
  | [], pos, offsets => some (offsets, pos)
  | f :: rest, pos, offsets => do
    let len ← Layout.length_in_bytes schema f
    layoutFields schema rest (pos + len) (insertAssoc offsets f pos)

/-- `Layout::try_from_schema`. -/
def Layout.try_from_schema (schema : Schema) : Option Layout := do
  let (offsets, pos) ← layoutFields schema schema.fields 4 []
  some ⟨schema, offsets, pos⟩

/-- `Layout::offset`. -/
def Layout.offset (l : Layout) (fieldName : String) : Option Int :=
  lookupAssoc l.offsets fieldName

/-- The per-field slot width asserted by the claim: 4 bytes for an Int
field, `4 + L` bytes for a `Varchar(L)` field. -/
def claimedWidth : FieldTypes → Int → Int
  | .integer, _ => 4
  | .varchar, len => 4 + len

theorem ofDecls_fields_from (decls : List (String × FieldTypes × Int)) (s : Schema) :
    (decls.foldl (fun s d => s.add_field d.1 d.2.1 d.2.2) s).fields
      = s.fields ++ decls.map (fun d => d.1) := by
  induction decls generalizing s with
  | nil => simp
  | cons d rest ih =>
    simp only [List.foldl, List.map]
    rw [ih]
    simp [Schema.add_field]

theorem ofDecls_info_not_mem (decls : List (String × FieldTypes × Int)) (s : Schema)
    (n : String) (h : ¬ n ∈ decls.map (fun d => d.1)) :
    lookupAssoc (decls.foldl (fun s d => s.add_field d.1 d.2.1 d.2.2) s).info n
      = lookupAssoc s.info n := by
  induction decls generalizing s with
  | nil => rfl
  | cons d rest ih =>
    simp only [List.map, List.mem_cons, not_or] at h
    simp only [List.foldl]
    rw [ih _ h.2]
    show lookupAssoc (insertAssoc s.info d.1 ⟨d.2.1, d.2.2⟩) n = _
    rw [lookupAssoc_insert, if_neg h.1]

theorem ofDecls_info_mem (decls : List (String × FieldTypes × Int)) (n : String)
    (d : String × FieldTypes × Int) (hnd : (decls.map (fun q => q.1)).Nodup)
    (hd : d ∈ decls) (hn : d.1 = n) :
    lookupAssoc (Schema.ofDecls decls).info n = some ⟨d.2.1, d.2.2⟩ := by
  obtain ⟨pre, post, rfl⟩ := List.append_of_mem hd
  have hpost : ¬ n ∈ post.map (fun q => q.1) := by
    subst hn
    rw [List.map_append] at hnd
    have h1 := hnd.of_append_right
    simp only [List.map] at h1
    exact (List.nodup_cons.mp h1).1
  unfold Schema.ofDecls
  rw [List.foldl_append]
  simp only [List.foldl]
  rw [ofDecls_info_not_mem post _ n hpost]
  simp only [Schema.add_field]
  rw [lookupAssoc_insert, if_pos hn.symm]

theorem find?_eq_of_mem_nodup (decls : List (String × FieldTypes × Int))
    (d : String × FieldTypes × Int) (hnd : (decls.map (fun q => q.1)).Nodup)
    (hd : d ∈ decls) :
    decls.find? (fun q => q.1 = d.1) = some d := by
  induction decls with
  | nil => cases hd
  | cons q rest ih =>
    simp only [List.map] at hnd
    have hnd' := List.nodup_cons.mp hnd
    rcases List.mem_cons.mp hd with rfl | hmem
    · rw [List.find?_cons_of_pos _ (by simp)]
    · have hq : ¬ (q.1 = d.1) := by
        intro hc
        exact hnd'.1 (hc ▸ List.mem_map_of_mem _ hmem)
      rw [List.find?_cons_of_neg _ (by simpa using hq)]
      exact ih hnd'.2 hmem

theorem layoutFields_spec (schema : Schema) (w : String → Int) :
    ∀ (names : List String) (pos : Int) (offsets : List (String × Int)),
    (∀ n ∈ names, Layout.length_in_bytes schema n = some (w n)) → names.Nodup →
    ∃ finalOffsets,
      layoutFields schema names pos offsets = some (finalOffsets, pos + (names.map w).sum) ∧
      (∀ n, ¬ n ∈ names → lookupAssoc finalOffsets n = lookupAssoc offsets n) ∧
      ∀ preN n postN, names = preN ++ n :: postN →
        lookupAssoc finalOffsets n = some (pos + (preN.map w).sum) := by
  intro names
  induction names with
  | nil =>
    intro pos offsets _ _
    refine ⟨offsets, by simp [layoutFields], fun n _ => rfl, fun preN n postN hsplit => ?_⟩
    cases preN <;> simp at hsplit
  | cons n rest ih =>
    intro pos offsets hw hnd
    have hwn : Layout.length_in_bytes schema n = some (w n) := hw n (by simp)
    have hnd' := List.nodup_cons.mp hnd
    obtain ⟨finalOffsets, hrun, hmiss, hidx⟩ :=
      ih (pos + w n) (insertAssoc offsets n pos) (fun m hm => hw m (by simp [hm])) hnd'.2
    refine ⟨finalOffsets, ?_, ?_, ?_⟩
    · show (do
        let len ← Layout.length_in_bytes schema n
        layoutFields schema rest (pos + len) (insertAssoc offsets n pos)) = _
      rw [hwn]
      simp only [Option.bind_eq_bind, Option.some_bind]
      rw [hrun]
      congr 2
      simp only [List.map, List.sum_cons]
      ring
    · intro m hm
      simp only [List.mem_cons, not_or] at hm
      rw [hmiss m hm.2, lookupAssoc_insert, if_neg hm.1]
    · intro preN m postN hsplit
      cases preN with
      | nil =>
        simp only [List.nil_append, List.cons.injEq] at hsplit
        obtain ⟨rfl, rfl⟩ := hsplit
        rw [hmiss n hnd'.1, lookupAssoc_insert, if_pos rfl]
        simp
      | cons p preN' =>
        simp only [List.cons_append, List.cons.injEq] at hsplit
        obtain ⟨rfl, hsplit'⟩ := hsplit
        rw [hidx preN' m postN hsplit']
        congr 1
        simp only [List.map, List.sum_cons]
        ring

theorem varchar_width_eq {len : Int} (h0 : 0 ≤ len) (h1 : len ≤ 2 ^ 31 - 5) :
    i32OfNat ((Page.max_length (usizeOfI32 len) % 2 ^ 64) % 2 ^ 32) = 4 + len := by
  unfold usizeOfI32 Page.max_length i32OfNat
  have hmod : len % (2 : Int) ^ 64 = len := Int.emod_eq_of_lt h0 (by omega)
  rw [hmod]
  have h2 : (4 + len.toNat) % 2 ^ 64 = 4 + len.toNat := Nat.mod_eq_of_lt (by omega)
  have h3 : (4 + len.toNat) % 2 ^ 32 = 4 + len.toNat := Nat.mod_eq_of_lt (by omega)
  rw [h2, h3, if_pos (by omega)]
  omega

theorem length_in_bytes_ofDecls (decls : List (String × FieldTypes × Int))
    (d : String × FieldTypes × Int) (hnd : (decls.map (fun q => q.1)).Nodup)
    (hd : d ∈ decls) (hlen : d.2.1 = .varchar → 0 ≤ d.2.2 ∧ d.2.2 ≤ 2 ^ 31 - 5) :
    Layout.length_in_bytes (Schema.ofDecls decls) d.1 = some (claimedWidth d.2.1 d.2.2) := by
  have hinfo := ofDecls_info_mem decls d.1 d hnd hd rfl
  unfold Layout.length_in_bytes Schema.ftypeOf Schema.lengthOf
  rw [hinfo]
  cases ht : d.2.1 with
  | integer => rfl
  | varchar =>
    obtain ⟨h0, h1⟩ := hlen ht
    show some (i32OfNat ((Page.max_length (usizeOfI32 d.2.2) % 2 ^ 64) % 2 ^ 32))
      = some (claimedWidth FieldTypes.varchar d.2.2)
    rw [varchar_width_eq h0 h1]
    rfl

/-- **C9.** The Layout derived from a schema assigns field offsets starting
at 4 (after the 4-byte Empty/Used flag), in declaration order, each field
advancing the position by 4 bytes (Int) or `4 + L` bytes (Varchar(L)), with
`slot_size` the total; in particular the schema `{A int, B varchar(9)}`
yields offsets A=4, B=8 and `slot_size = 4 + 4 + (4 + 9) = 21`. -/
theorem layout_offsets_in_declared_order
    (decls : List (String × FieldTypes × Int))
    (hnd : (decls.map (fun d => d.1)).Nodup)
    (hlen : ∀ d ∈ decls, d.2.1 = .varchar → 0 ≤ d.2.2 ∧ d.2.2 ≤ 2 ^ 31 - 5) :
    (∃ l, Layout.try_from_schema (Schema.ofDecls decls) = some l ∧
      l.slot_size = 4 + (decls.map (fun d => claimedWidth d.2.1 d.2.2)).sum ∧
      ∀ pre d post, decls = pre ++ d :: post →
        l.offset d.1 = some (4 + (pre.map (fun q => claimedWidth q.2.1 q.2.2)).sum)) ∧
    (∃ l, Layout.try_from_schema
        (((Schema.mk [] []).add_int_field "A").add_string_field "B" 9) = some l ∧
      l.slot_size = 21 ∧ l.offset "A" = some 4 ∧ l.offset "B" = some 8) := by
  constructor
  · set wfun : String → Int := fun n =>
      match decls.find? (fun q => q.1 = n) with
      | some d => claimedWidth d.2.1 d.2.2
      | none => 0 with hwfun
    have hwd : ∀ d ∈ decls, wfun d.1 = claimedWidth d.2.1 d.2.2 := by
      intro d hd
      rw [hwfun]
      simp only
      rw [find?_eq_of_mem_nodup decls d hnd hd]
    have hmapw : ∀ (sub : List (String × FieldTypes × Int)), (∀ d ∈ sub, d ∈ decls) →
        (sub.map (fun q => q.1)).map wfun =
          sub.map (fun d => claimedWidth d.2.1 d.2.2) := by
      intro sub hsub
      rw [List.map_map]
      refine List.map_congr_left ?_
      intro d hd
      exact hwd d (hsub d hd)
    have hw : ∀ n ∈ decls.map (fun d => d.1),
        Layout.length_in_bytes (Schema.ofDecls decls) n = some (wfun n) := by
      intro n hn
      obtain ⟨d, hd, rfl⟩ := List.mem_map.mp hn
      rw [hwd d hd]
      exact length_in_bytes_ofDecls decls d hnd hd (hlen d hd)
    obtain ⟨finalOffsets, hrun, _, hsplit⟩ :=
      layoutFields_spec (Schema.ofDecls decls) wfun (decls.map (fun d => d.1)) 4 [] hw hnd
    have hfields : (Schema.ofDecls decls).fields = decls.map (fun d => d.1) := by
      unfold Schema.ofDecls
      rw [ofDecls_fields_from]
      rfl
    refine ⟨⟨Schema.ofDecls decls, finalOffsets, 4 + ((decls.map (fun d => d.1)).map wfun).sum⟩,
      ?_, ?_, ?_⟩
    · unfold Layout.try_from_schema
      rw [hfields, hrun]
      rfl
    · show 4 + ((decls.map (fun d => d.1)).map wfun).sum = _
      rw [hmapw decls (fun d hd => hd)]
    · intro pre d post hdecls
      have hnames : decls.map (fun d => d.1) =
          (pre.map (fun q => q.1)) ++ d.1 :: (post.map (fun q => q.1)) := by
        rw [hdecls]
        simp
      show lookupAssoc finalOffsets d.1 = _
      rw [hsplit (pre.map (fun q => q.1)) d.1 (post.map (fun q => q.1)) hnames]
      rw [hmapw pre (fun q hq => hdecls ▸ List.mem_append_left _ hq)]
  · exact ⟨⟨((Schema.mk [] []).add_int_field "A").add_string_field "B" 9,
      [("B", 8), ("A", 4)], 21⟩, by rfl, rfl, by decide, by decide⟩

/-- Witness for the C9 theorem at the concrete declarations
`[A int, B varchar(9)]`. -/
theorem layout_offsets_witness :
    ((∃ l, Layout.try_from_schema
        (Schema.ofDecls [("A", FieldTypes.integer, 0), ("B", FieldTypes.varchar, 9)]) = some l ∧
      l.slot_size = 4 + ([("A", FieldTypes.integer, 0), ("B", FieldTypes.varchar, 9)].map
          (fun d => claimedWidth d.2.1 d.2.2)).sum ∧
      ∀ pre d post,
        [("A", FieldTypes.integer, 0), ("B", FieldTypes.varchar, 9)] = pre ++ d :: post →
        l.offset d.1 = some (4 + (pre.map (fun q => claimedWidth q.2.1 q.2.2)).sum)) ∧
    (∃ l, Layout.try_from_schema
        (((Schema.mk [] []).add_int_field "A").add_string_field "B" 9) = some l ∧
      l.slot_size = 21 ∧ l.offset "A" = some 4 ∧ l.offset "B" = some 8)) :=
  layout_offsets_in_declared_order
    [("A", FieldTypes.integer, 0), ("B", FieldTypes.varchar, 9)]
    (by decide) (by decide)

/-! ## Buffer and BufferManager (`src/buffer/buffer.rs`,
`src/buffer/buffer_manager.rs`)

`Buffer::flush` and `Buffer::assign_to_block` are embedded as functions
that, besides the new buffer state, emit the sequence of external calls
they make, in program order: the WAL claim is about that order.
-/

inductive WalEvent where
  | logFlush (lsn : Int)
  | fileWrite (block : BlockId)
  | fileRead (block : BlockId)
deriving DecidableEq, Repr

structure Buffer where
  contents : Page
  block : Option BlockId
  pins : Int
  txnum : Int
  lsn : Int
deriving DecidableEq, Repr

/-- `Buffer::new`: no block, `txnum = -1`, `lsn = -1`. -/
def Buffer.new (blockSize : Nat) : Buffer :=
  ⟨Page.new blockSize, none, 0, -1, -1⟩

/-- `Buffer::set_modified`. -/
def Buffer.set_modified (b : Buffer) (txnum lsn : Int) : Buffer :=
  { b with txnum := txnum, lsn := if lsn ≥ 0 then lsn else b.lsn }

/-- `Buffer::is_pinned`. -/
def Buffer.is_pinned (b : Buffer) : Bool := b.pins > 0

/-- `Buffer::modifying_tx`. -/
def Buffer.modifying_tx (b : Buffer) : Int := b.txnum

/-- `Buffer::flush`: when `txnum >= 0`, ask the log manager to flush up to
this buffer's `lsn`, then write the page to its block
(`self.block.as_ref().unwrap()` — `none` models that panic), then clear
`txnum`.  Otherwise do nothing. -/
def Buffer.flush (b : Buffer) : Option (Buffer × List WalEvent) :=
  if b.txnum ≥ 0 then
    match b.block with
    | none => none
    | some blk => some ({ b with txnum := -1 }, [.logFlush b.lsn, .fileWrite blk])
  else some (b, [])

/-- `Buffer::assign_to_block`: flush the old contents, then read the new
block and reset the pin count. -/
def Buffer.assign_to_block (b : Buffer) (block : BlockId) (newContents : Page) :
    Option (Buffer × List WalEvent) := do
  let (b, evs) ← b.flush
  some ({ b with block := some block, contents := newContents, pins := 0 },
    evs ++ [.fileRead block])

/-- The `for` loop of `BufferManager::flush_all`, accumulating the updated
pool and the emitted events. -/
def BufferManager.flushAllGo (txnum : Int) :
    List Buffer → List Buffer × List WalEvent → Option (List Buffer × List WalEvent)
  | [], acc => some acc
  | b :: rest, acc =>
    if b.modifying_tx = txnum then
      match b.flush with
      | none => none
      | some (b', evs) => BufferManager.flushAllGo txnum rest (acc.1 ++ [b'], acc.2 ++ evs)
    else BufferManager.flushAllGo txnum rest (acc.1 ++ [b], acc.2)

/-- `BufferManager::flush_all(txnum)`: flush every buffer whose
`modifying_tx` equals `txnum`. -/
def BufferManager.flush_all (pool : List Buffer) (txnum : Int) :
    Option (List Buffer × List WalEvent) :=
  BufferManager.flushAllGo txnum pool ([], [])

/-- A trace respects write-ahead logging when every page write is
immediately preceded by the log-flush request that covers it. -/
def walOk : List WalEvent → Bool
  | [] => true
  | .fileWrite _ :: _ => false
  | .logFlush _ :: .fileWrite _ :: rest => walOk rest
  | _ :: rest => walOk rest

theorem Buffer.flush_dirty (b : Buffer) (blk : BlockId)
    (hdirty : b.txnum ≥ 0) (hblk : b.block = some blk) :
    b.flush = some ({ b with txnum := -1 }, [.logFlush b.lsn, .fileWrite blk]) := by
  unfold Buffer.flush
  rw [if_pos hdirty, hblk]

theorem Buffer.flush_clean (b : Buffer) (hclean : ¬ b.txnum ≥ 0) :
    b.flush = some (b, []) := by
  unfold Buffer.flush
  rw [if_neg hclean]

theorem Buffer.flush_walOk (b : Buffer) :
    ∀ st, b.flush = some st → walOk st.2 ∧ st.1.txnum < 0 ∨ b.flush = some (b, []) := by
  intro st hst
  unfold Buffer.flush at hst
  split at hst
  · split at hst
    · cases hst
    · left
      cases hst
      exact ⟨rfl, by simp⟩
  · right
    unfold Buffer.flush
    next hneg => rw [if_neg hneg]

theorem walOk_append_pair (lsn : Int) (blk : BlockId) :
    ∀ (evs : List WalEvent), walOk evs →
      walOk (evs ++ [.logFlush lsn, .fileWrite blk])
  | [], _ => rfl
  | .fileWrite b' :: rest, h => by simp [walOk] at h
  | [.logFlush l], _ => rfl
  | .logFlush l :: .fileWrite b' :: rest, h => by
    show walOk (rest ++ [.logFlush lsn, .fileWrite blk]) = true
    exact walOk_append_pair lsn blk rest (by simpa [walOk] using h)
  | .logFlush l :: .logFlush l' :: rest, h => by
    show walOk ((WalEvent.logFlush l' :: rest) ++ [.logFlush lsn, .fileWrite blk]) = true
    exact walOk_append_pair lsn blk (.logFlush l' :: rest) (by simpa [walOk] using h)
  | .logFlush l :: .fileRead b' :: rest, h => by
    show walOk ((WalEvent.fileRead b' :: rest) ++ [.logFlush lsn, .fileWrite blk]) = true
    exact walOk_append_pair lsn blk (.fileRead b' :: rest) (by simpa [walOk] using h)
  | .fileRead b' :: rest, h => by
    show walOk (rest ++ [.logFlush lsn, .fileWrite blk]) = true
    exact walOk_append_pair lsn blk rest (by simpa [walOk] using h)

theorem BufferManager.flushAllGo_walOk (txnum : Int) :
    ∀ (pool : List Buffer) (acc : List Buffer × List WalEvent), walOk acc.2 →
      ∀ st, BufferManager.flushAllGo txnum pool acc = some st → walOk st.2 := by
  intro pool
  induction pool with
  | nil =>
    intro acc hacc st hst
    cases hst
    exact hacc
  | cons b rest ih =>
    intro acc hacc st hst
    unfold BufferManager.flushAllGo at hst
    by_cases hm : b.modifying_tx = txnum
    · rw [if_pos hm] at hst
      by_cases hd : b.txnum ≥ 0
      · cases hblk : b.block with
        | none =>
          rw [show b.flush = none by unfold Buffer.flush; rw [if_pos hd, hblk]] at hst
          simp at hst
        | some blk =>
          rw [Buffer.flush_dirty b blk hd hblk] at hst
          exact ih _ (walOk_append_pair b.lsn blk acc.2 hacc) st hst
      · rw [Buffer.flush_clean b hd] at hst
        refine ih _ ?_ st hst
        simpa using hacc
    · rw [if_neg hm] at hst
      exact ih (acc.1 ++ [b], acc.2) hacc st hst

theorem BufferManager.flush_all_walOk (pool : List Buffer) (txnum : Int) :
    ∀ st, BufferManager.flush_all pool txnum = some st → walOk st.2 := by
  intro st hst
  exact BufferManager.flushAllGo_walOk txnum pool ([], []) rfl st hst

/-- **C4.** Whenever a buffer with `modifying_tx >= 0` is written back —
by `Buffer::flush` directly, by eviction (`assign_to_block`), or through
`BufferManager::flush_all` — the log manager is first asked to flush up to
the buffer's `lsn`, and only afterwards is the page written and
`modifying_tx` reset to -1; every trace satisfies `walOk` (no page write
without the preceding log-flush request), and a clean buffer is not
written at all. -/
theorem buffer_wal_order (b : Buffer) (blk newBlk : BlockId) (p : Page)
    (hdirty : b.txnum ≥ 0) (hblk : b.block = some blk) :
    (b.flush = some ({ b with txnum := -1 }, [.logFlush b.lsn, .fileWrite blk])) ∧
    (b.assign_to_block newBlk p =
      some ({ b with txnum := -1, block := some newBlk, contents := p, pins := 0 },
        [.logFlush b.lsn, .fileWrite blk, .fileRead newBlk])) ∧
    (∀ b' : Buffer, ¬ b'.txnum ≥ 0 → b'.flush = some (b', [])) ∧
    (∀ (pool : List Buffer) (txnum : Int) st,
      BufferManager.flush_all pool txnum = some st → walOk st.2) := by
  refine ⟨Buffer.flush_dirty b blk hdirty hblk, ?_, Buffer.flush_clean, BufferManager.flush_all_walOk⟩
  unfold Buffer.assign_to_block
  rw [Buffer.flush_dirty b blk hdirty hblk]
  rfl

/-- Witness for the C4 theorem: a concrete dirty buffer is flushed with the
log-flush request strictly before the page write. -/
theorem buffer_wal_order_witness :
    ((Buffer.mk (Page.new 8) (some ⟨"t", 0⟩) 0 1 17).flush =
      some ({ Buffer.mk (Page.new 8) (some ⟨"t", 0⟩) 0 1 17 with txnum := -1 },
        [.logFlush 17, .fileWrite ⟨"t", 0⟩])) ∧
    ((Buffer.mk (Page.new 8) (some ⟨"t", 0⟩) 0 1 17).assign_to_block ⟨"t", 1⟩ (Page.new 8) =
      some ({ Buffer.mk (Page.new 8) (some ⟨"t", 0⟩) 0 1 17 with
          txnum := -1, block := some ⟨"t", 1⟩, contents := Page.new 8, pins := 0 },
        [.logFlush 17, .fileWrite ⟨"t", 0⟩, .fileRead ⟨"t", 1⟩])) ∧
    (∀ b' : Buffer, ¬ b'.txnum ≥ 0 → b'.flush = some (b', [])) ∧
    (∀ (pool : List Buffer) (txnum : Int) st,
      BufferManager.flush_all pool txnum = some st → walOk st.2) :=
  buffer_wal_order (Buffer.mk (Page.new 8) (some ⟨"t", 0⟩) 0 1 17) ⟨"t", 0⟩ ⟨"t", 1⟩
    (Page.new 8) (by decide) rfl

/-! ## ProductScan (`src/query/product_scan.rs`)

The two children are modelled as list cursors (the observable contract of
a freshly `before_first`-ed child scan: `before_first` moves before the
first record, `next` advances one record and reports whether one exists).
`ProductScan::next` is translated literally, including the
`scan1.next()? && scan1.next()?` at product_scan.rs:31 (the outer scan is
advanced twice and the inner scan is left before its first record).
-/

structure ListScan where
  rows : List Int
  pos : Int
deriving DecidableEq, Repr

def ListScan.before_first (s : ListScan) : ListScan := { s with pos := -1 }

def ListScan.next (s : ListScan) : ListScan × Bool :=
  let p := s.pos + 1
  if p < (s.rows.length : Int) then ({ s with pos := p }, true)
  else ({ s with pos := (s.rows.length : Int) }, false)

structure ProductScanM where
  scan1 : ListScan
  scan2 : ListScan
deriving DecidableEq, Repr

/-- `ProductScan::before_first`: position the outer on its first record
and the inner before its first. -/
def ProductScanM.before_first (p : ProductScanM) : ProductScanM :=
  let s1 := p.scan1.before_first
  let (s1, _) := s1.next
  let s2 := p.scan2.before_first
  ⟨s1, s2⟩

/-- `ProductScan::next`, translated literally from the source: when the
inner is exhausted it is reset with `before_first`, and then
`scan1.next()? && scan1.next()?` is evaluated (short-circuiting). -/
def ProductScanM.next (p : ProductScanM) : ProductScanM × Bool :=
  let (s2, ok2) := p.scan2.next
  if ok2 then ({ p with scan2 := s2 }, true)
  else
    let s2 := s2.before_first
    let (s1, ok1) := p.scan1.next
    if ok1 then
      let (s1, ok1') := s1.next
      (⟨s1, s2⟩, ok1')
    else (⟨s1, s2⟩, false)

/-- Repeatedly call `next`, recording the `(outer, inner)` cursor positions
visited while `next` returns true. -/
def ProductScanM.run : Nat → ProductScanM → List (Int × Int)
  | 0, _ => []
  | fuel + 1, p =>
    let (p', ok) := p.next
    if ok then (p'.scan1.pos, p'.scan2.pos) :: ProductScanM.run fuel p' else []

/-- **C2.** The claim says `next` advances the inner scan until exhausted
and only then resets the inner and advances the outer by exactly one
record, enumerating every (outer, inner) pair exactly once.  With an outer
child of 3 records and an inner child of 1 record the code visits the
positions `[(0, 0), (2, -1), (2, 0)]`: after the inner is exhausted the
outer is advanced twice (skipping outer record 1 entirely) and a position
with the inner *before its first record* (-1) is reported as a row.  The
claimed enumeration `[(0, 0), (1, 0), (2, 0)]` is not produced. -/
theorem product_scan_advances_outer_twice :
    ProductScanM.run 10 (ProductScanM.before_first ⟨⟨[10, 20, 30], -1⟩, ⟨[40], -1⟩⟩) =
      [(0, 0), (2, -1), (2, 0)] ∧
    ProductScanM.run 10 (ProductScanM.before_first ⟨⟨[10, 20, 30], -1⟩, ⟨[40], -1⟩⟩) ≠
      [(0, 0), (1, 0), (2, 0)] := by
  constructor
  · decide
  · decide

/-! ## LogManager (`src/log/log_manager.rs`) and LogIterator
(`src/log_iter.rs`)

The log file is a list of blocks (each a byte list).  `FileManager::write`
overwrites a block in place; `append_block` adds a zero-filled block;
`read` fills the caller's page (a short read past end-of-file leaves the
page unchanged — all real blocks are full, so `getD` with the previous
page as default captures this).
-/

def fileWriteBlock (file : List (List Nat)) (num : Nat) (page : Page) : List (List Nat) :=
  file.set num page.data

def fileReadBlock (file : List (List Nat)) (num : Nat) (page : Page) : Page :=
  ⟨file.getD num page.data⟩

structure LogManagerState where
  file : List (List Nat)
  logPage : Page
  currentBlockNum : Nat
  latestLsn : Int
  lastSavedLsn : Int
deriving Repr, DecidableEq

/-- `LogManager::inner_flush`: write the in-memory page to the current
block and record the saved LSN. -/
def LogManagerState.inner_flush (st : LogManagerState) : LogManagerState :=
  { st with file := fileWriteBlock st.file st.currentBlockNum st.logPage,
            lastSavedLsn := st.latestLsn }

/-- `LogManager::append_new_block`: append a zero block, set the page's
boundary word to `block_size`, write the page to the new block. -/
def appendNewBlock (blockSize : Nat) (file : List (List Nat)) (logPage : Page) :
    Nat × List (List Nat) × Page :=
  let newNum := file.length
  let file := file ++ [List.replicate blockSize 0]
  let logPage := logPage.set_int 0 (blockSize : Int)
  let file := fileWriteBlock file newNum logPage
  (newNum, file, logPage)

/-- `LogManager::flush(lsn)`. -/
def LogManagerState.flush (st : LogManagerState) (lsn : Int) : LogManagerState :=
  if lsn ≥ st.lastSavedLsn then st.inner_flush else st

/-- `LogManager::append`. -/
def LogManagerState.append (blockSize : Nat) (st : LogManagerState) (record : List Nat) :
    Option (Int × LogManagerState) := do
  let boundary0 ← st.logPage.get_int 0
  let record_size : Int := record.length
  let bytes_needed := record_size + 4
  let (boundary, st) ←
    if boundary0 - bytes_needed < 4 then do
      let st := st.inner_flush
      let (num, file, page) := appendNewBlock blockSize st.file st.logPage
      let st := { st with currentBlockNum := num, file := file, logPage := page }
      let boundary ← st.logPage.get_int 0
      pure (boundary, st)
    else pure (boundary0, st)
  let record_pos := boundary - bytes_needed
  let logPage := (st.logPage.set_bytes (usizeOfI32 record_pos) record).set_int 0 record_pos
  some (st.latestLsn + 1, { st with logPage := logPage, latestLsn := st.latestLsn + 1 })

/-- `LogManager::new` over an empty log file. -/
def LogManager.newEmpty (blockSize : Nat) : LogManagerState :=
  let logPage := Page.new blockSize
  let (num, file, logPage) := appendNewBlock blockSize [] logPage
  ⟨file, logPage, num, 0, 0⟩

def LogManagerState.appendAll (blockSize : Nat) :
    LogManagerState → List (List Nat) → Option LogManagerState
  | st, [] => some st
  | st, r :: rs => do
    let (_, st') ← st.append blockSize r
    LogManagerState.appendAll blockSize st' rs

structure LogIterState where
  file : List (List Nat)
  blockSize : Nat
  blockNum : Nat
  page : Page
  boundary : Nat
  current_pos : Nat
deriving Repr, DecidableEq

/-- `LogIterator::move_to_block`: read the block, take its boundary word
as the starting position (`get_int(0)` cannot fail on a block of at least
4 bytes; the `getD 0` default is dead code there). -/
def LogIterState.move_to_block (st : LogIterState) (num : Nat) : LogIterState :=
  let page := fileReadBlock st.file num st.page
  let boundary := usizeOfI32 ((page.get_int 0).getD 0)
  { st with blockNum := num, page := page, boundary := boundary, current_pos := boundary }

/-- `LogIterator::new`. -/
def LogIterState.new (file : List (List Nat)) (blockSize : Nat) (blockNum : Nat) :
    LogIterState :=
  LogIterState.move_to_block ⟨file, blockSize, blockNum, Page.new blockSize, 0, 0⟩ blockNum

/-- `LogManager::iter`: flush first, then iterate from the current block. -/
def LogManagerState.iter (blockSize : Nat) (st : LogManagerState) :
    LogManagerState × LogIterState :=
  let st := st.inner_flush
  (st, LogIterState.new st.file blockSize st.currentBlockNum)

/-- `LogIterator::has_next`. -/
def LogIterState.has_next (st : LogIterState) : Bool :=
  decide (st.current_pos < st.blockSize) || decide (0 < st.blockNum)

/-- The record-reading tail of `LogIterator::next`: read the
length-prefixed record at `current_pos` and advance past it (an
out-of-bounds read panic is modelled as `none`). -/
def LogIterState.read_record (st : LogIterState) : Option (List Nat × LogIterState) :=
  match st.page.get_bytes st.current_pos with
  | none => none
  | some record => some (record, { st with current_pos := st.current_pos + record.length + 4 })

/-- `LogIterator::next` (`Iterator::next`): move to the previous block when
the current one is exhausted, then read the record at `current_pos`. -/
def LogIterState.next (st : LogIterState) : Option (List Nat × LogIterState) :=
  if ¬ st.has_next then none
  else
    (if st.current_pos = st.blockSize then st.move_to_block (st.blockNum - 1) else st).read_record

/-- Drive the iterator, collecting the yielded records. -/
def LogIterState.collect : Nat → LogIterState → List (List Nat)
  | 0, _ => []
  | fuel + 1, st =>
    match st.next with
    | none => []
    | some (r, st') => r :: LogIterState.collect fuel st'

/-! ### Reading and writing well-formed page regions -/

theorem usizeOfI32_small {v : Int} (h0 : 0 ≤ v) (h1 : v < 2 ^ 64) :
    usizeOfI32 v = v.toNat := by
  unfold usizeOfI32
  rw [Int.emod_eq_of_lt h0 h1]

theorem get_int_at (a b : List Nat) (v : Int) (pos : Nat)
    (ha : a.length = pos) (h0 : -(2 : Int) ^ 31 ≤ v) (h1 : v < 2 ^ 31) :
    (Page.mk (a ++ le4 v ++ b)).get_int pos = some v := by
  unfold Page.get_int readExact
  have hd : (Page.mk (a ++ le4 v ++ b)).data = a ++ le4 v ++ b := rfl
  rw [hd]
  have hlen : pos + 4 ≤ (a ++ le4 v ++ b).length := by
    simp [← ha]
  rw [if_pos hlen]
  have hdrop : (a ++ le4 v ++ b).drop pos = le4 v ++ b := by
    rw [List.append_assoc, ← ha]
    exact List.drop_left a (le4 v ++ b)
  have htake : (le4 v ++ b).take 4 = le4 v := by
    rw [show (4 : Nat) = (le4 v).length from (le4_length v).symm]
    exact List.take_left (le4 v) b
  rw [hdrop, htake]
  simp only [Option.map_some']
  rw [i32OfNat_natOfLe_le4 h0 h1]

theorem get_bytes_at (a r b : List Nat) (pos : Nat)
    (ha : a.length = pos) (hlen : (r.length : Int) < 2 ^ 31) :
    (Page.mk (a ++ le4 (r.length : Int) ++ (r ++ b))).get_bytes pos = some r := by
  unfold Page.get_bytes
  rw [get_int_at a (r ++ b) (r.length : Int) pos ha (by omega) hlen]
  simp only [Option.bind_eq_bind, Option.some_bind]
  rw [usizeOfI32_small (by omega) (by omega)]
  have htn : ((r.length : Int)).toNat = r.length := Int.toNat_natCast r.length
  rw [htn]
  show readExact (a ++ le4 (r.length : Int) ++ (r ++ b)) (pos + 4) r.length = some r
  have hassoc : a ++ le4 (r.length : Int) ++ (r ++ b)
      = (a ++ le4 (r.length : Int)) ++ (r ++ b) := rfl
  have hpre : (a ++ le4 (r.length : Int)).length = pos + 4 := by
    simp only [List.length_append, le4_length]
    omega
  unfold readExact
  rw [if_pos (by simp only [List.length_append, le4_length]; omega)]
  rw [hassoc, List.drop_left' hpre]
  congr 1
  exact List.take_left r b

theorem set_int_zero_splice (d : List Nat) (v : Int) (h : 4 ≤ d.length) :
    (Page.mk d).set_int 0 v = ⟨le4 v ++ d.drop 4⟩ := by
  unfold Page.set_int
  congr 1
  rw [writeAll_in_range (by simp only [le4_length]; omega)]
  simp

theorem set_bytes_splice (d : List Nat) (pos : Nat) (r : List Nat)
    (h : pos + 4 + r.length ≤ d.length) :
    (Page.mk d).set_bytes pos r =
      ⟨d.take pos ++ le4 (r.length : Int) ++ r ++ d.drop (pos + 4 + r.length)⟩ := by
  have hpre : (d.take pos ++ le4 (r.length : Int)).length = pos + 4 := by
    simp only [List.length_append, le4_length, List.length_take]
    omega
  have step1 : writeAll d pos (le4 (r.length : Int))
      = d.take pos ++ le4 (r.length : Int) ++ d.drop (pos + 4) := by
    rw [writeAll_in_range (by simp only [le4_length]; omega)]
    simp only [le4_length]
  have hmid : (d.take pos ++ le4 (r.length : Int) ++ d.drop (pos + 4)).length = d.length := by
    simp only [List.length_append, le4_length, List.length_take, List.length_drop]
    omega
  have step2 : writeAll (d.take pos ++ le4 (r.length : Int) ++ d.drop (pos + 4)) (pos + 4) r
      = d.take pos ++ le4 (r.length : Int) ++ r ++ d.drop (pos + 4 + r.length) := by
    rw [writeAll_in_range (by rw [hmid]; omega)]
    have htake : (d.take pos ++ le4 (r.length : Int) ++ d.drop (pos + 4)).take (pos + 4)
        = d.take pos ++ le4 (r.length : Int) := List.take_left' hpre
    have h1 : (d.take pos ++ le4 (r.length : Int) ++ d.drop (pos + 4)).drop (pos + 4)
        = d.drop (pos + 4) := List.drop_left' hpre
    have hdrop : (d.take pos ++ le4 (r.length : Int) ++ d.drop (pos + 4)).drop
        (pos + 4 + r.length) = d.drop (pos + 4 + r.length) := by
      have key : ∀ (l : List Nat), (l.drop (pos + 4)).drop r.length
          = l.drop (pos + 4 + r.length) := by
        intro l
        rw [List.drop_drop]
        try congr 1
        try omega
      rw [← key, h1, key]
    rw [htake, hdrop]
    try simp [List.append_assoc]
  show Page.mk (writeAll (writeAll d pos (le4 (r.length : Int))) (pos + 4) r) = _
  rw [step1, step2]

/-! ### The log append boundary (C3) -/

/-- A fresh log manager over an empty file: one block whose boundary word
is `block_size` and whose remaining bytes are zero. -/
theorem newEmpty_eq (bs : Nat) (h4 : 4 ≤ bs) :
    LogManager.newEmpty bs =
      ⟨[le4 (bs : Int) ++ List.replicate (bs - 4) 0],
       ⟨le4 (bs : Int) ++ List.replicate (bs - 4) 0⟩, 0, 0, 0⟩ := by
  have hp : (Page.new bs).set_int 0 (bs : Int) =
      ⟨le4 (bs : Int) ++ List.replicate (bs - 4) 0⟩ := by
    rw [show Page.new bs = Page.mk (List.replicate bs 0) from rfl]
    rw [set_int_zero_splice _ _ (by simp; omega)]
    congr 2
    rw [List.drop_replicate]
  calc LogManager.newEmpty bs
      = ⟨[((Page.new bs).set_int 0 (bs : Int)).data],
          (Page.new bs).set_int 0 (bs : Int), 0, 0, 0⟩ := rfl
    _ = _ := by rw [hp]

theorem d0_length (bs : Nat) (h4 : 4 ≤ bs) :
    (le4 (bs : Int) ++ List.replicate (bs - 4) 0).length = bs := by
  simp only [List.length_append, le4_length, List.length_replicate]
  omega

theorem d0_get_int (bs : Nat) (h31 : bs < 2 ^ 31) :
    (Page.mk (le4 (bs : Int) ++ List.replicate (bs - 4) 0)).get_int 0 = some (bs : Int) := by
  have := get_int_at [] (List.replicate (bs - 4) 0) (bs : Int) 0 rfl (by omega) (by omega)
  simpa using this

/-- Appending a record of exactly `block_size - 8` bytes to a fresh log:
it fits; the file keeps its single block and the record is placed at
offset 4 with the boundary word updated to 4. -/
theorem log_append_max_fit (bs : Nat) (r : List Nat) (h8 : 8 ≤ bs) (h31 : bs < 2 ^ 31)
    (hr : r.length + 8 = bs) :
    ∃ p : Page, (LogManager.newEmpty bs).append bs r =
      some (1, ⟨[le4 (bs : Int) ++ List.replicate (bs - 4) 0], p, 0, 1, 0⟩) ∧
      p.data = le4 4 ++ le4 (r.length : Int) ++ r := by
  rw [newEmpty_eq bs (by omega)]
  have hlen := d0_length bs (by omega)
  unfold LogManagerState.append
  rw [d0_get_int bs h31]
  simp only [Option.bind_eq_bind, Option.some_bind]
  rw [if_neg (by omega)]
  simp only [Option.pure_def, Option.bind_eq_bind, Option.some_bind]
  have hpos : (bs : Int) - ((r.length : Int) + 4) = 4 := by omega
  rw [hpos]
  rw [show usizeOfI32 4 = 4 from by decide]
  rw [set_bytes_splice _ 4 r (by omega)]
  have htake4 : (le4 (bs : Int) ++ List.replicate (bs - 4) 0).take 4 = le4 (bs : Int) :=
    List.take_left' (le4_length _)
  have hdropEnd : (le4 (bs : Int) ++ List.replicate (bs - 4) 0).drop (4 + 4 + r.length)
      = [] := by
    apply List.drop_eq_nil_of_le
    omega
  rw [htake4, hdropEnd]
  rw [set_int_zero_splice _ 4 (by simp only [List.length_append, le4_length]; omega)]
  refine ⟨_, rfl, ?_⟩
  show le4 4 ++ (le4 (bs : Int) ++ le4 (r.length : Int) ++ r ++ []).drop 4 = _
  rw [show le4 (bs : Int) ++ le4 (r.length : Int) ++ r ++ []
      = le4 (bs : Int) ++ (le4 (r.length : Int) ++ r ++ []) from by
    simp [List.append_assoc]]
  rw [List.drop_left' (le4_length _)]
  simp

/-- Appending a record of exactly `block_size - 7` bytes to a fresh log:
it does not fit; the page is flushed and a second block is appended, the
flushed first block keeping its contents. -/
theorem log_append_overflow (bs : Nat) (r : List Nat) (h8 : 8 ≤ bs) (h31 : bs < 2 ^ 31)
    (hr : r.length + 7 = bs) :
    ∃ st' : LogManagerState, (LogManager.newEmpty bs).append bs r = some (1, st') ∧
      st'.file.length = 2 ∧ st'.currentBlockNum = 1 ∧
      st'.file.getD 0 [] = le4 (bs : Int) ++ List.replicate (bs - 4) 0 := by
  rw [newEmpty_eq bs (by omega)]
  have hlen := d0_length bs (by omega)
  unfold LogManagerState.append
  rw [d0_get_int bs h31]
  simp only [Option.bind_eq_bind, Option.some_bind]
  rw [if_pos (by omega)]
  unfold LogManagerState.inner_flush appendNewBlock fileWriteBlock
  simp only
  have hsame : ((Page.mk (le4 (bs : Int) ++ List.replicate (bs - 4) 0)).set_int 0 (bs : Int))
      = Page.mk (le4 (bs : Int) ++ List.replicate (bs - 4) 0) := by
    rw [set_int_zero_splice _ _ (by omega)]
    congr 1
  rw [hsame]
  rw [d0_get_int bs h31]
  simp only [Option.pure_def, Option.bind_eq_bind, Option.some_bind]
  have hpos : (bs : Int) - ((r.length : Int) + 4) = 3 := by omega
  rw [hpos]
  rw [show usizeOfI32 3 = 3 from by decide]
  rw [set_bytes_splice _ 3 r (by omega)]
  rw [set_int_zero_splice _ 3 (by
    simp only [List.length_append, le4_length, List.length_take, List.length_drop]
    omega)]
  exact ⟨_, rfl, rfl, rfl, rfl⟩

/-- `append_new_block` always initialises the fresh block's boundary word
to `block_size`. -/
theorem appendNewBlock_boundary (bs : Nat) (file : List (List Nat)) (p : Page)
    (h31 : bs < 2 ^ 31) :
    ((appendNewBlock bs file p).2.2).get_int 0 = some (bs : Int) := by
  show (p.set_int 0 (bs : Int)).get_int 0 = some (bs : Int)
  unfold Page.set_int
  have hw : writeAll p.data 0 (le4 (bs : Int)) = [] ++ le4 (bs : Int) ++ p.data.drop 4 := by
    unfold writeAll
    simp
  rw [hw]
  exact get_int_at [] _ _ 0 rfl (by omega) (by omega)

/-- **C3, counterexample.** With `block_size = 32`, appending a record of
exactly `block_size - 4 = 28` bytes to a fresh (empty) log block does
*not* fit in the current block: the condition `boundary - needed < 4`
(`32 - 32 < 4`) triggers a flush and a second block is appended, so the
log file has 2 blocks, not 1 as the claim requires. -/
theorem log_append_block_size_minus_4_overflows :
    ((LogManager.newEmpty 32).append 32 (List.replicate 28 0)).map
      (fun p => p.2.file.length) = some 2 ∧
    ¬ (((LogManager.newEmpty 32).append 32 (List.replicate 28 0)).map
      (fun p => p.2.file.length) = some 1) := by
  constructor
  · decide
  · decide

/-- **C3, amended.** In the log manager's `append`, a record of exactly
`block_size − 8` bytes fits in an empty log block (the 4-byte boundary
word and the record's own 4-byte length prefix both take room), and a
record one byte larger triggers flushing the current block and appending a
fresh block, whose boundary word `append_new_block` initialises to
`block_size`. -/
theorem log_append_boundary_behavior :
    (∀ (bs : Nat) (r : List Nat), 8 ≤ bs → bs < 2 ^ 31 → r.length + 8 = bs →
      ∃ p : Page, (LogManager.newEmpty bs).append bs r =
        some (1, ⟨[le4 (bs : Int) ++ List.replicate (bs - 4) 0], p, 0, 1, 0⟩) ∧
        p.data = le4 4 ++ le4 (r.length : Int) ++ r) ∧
    (∀ (bs : Nat) (r : List Nat), 8 ≤ bs → bs < 2 ^ 31 → r.length + 7 = bs →
      ∃ st' : LogManagerState, (LogManager.newEmpty bs).append bs r = some (1, st') ∧
        st'.file.length = 2 ∧ st'.currentBlockNum = 1 ∧
        st'.file.getD 0 [] = le4 (bs : Int) ++ List.replicate (bs - 4) 0) ∧
    (∀ (bs : Nat) (file : List (List Nat)) (p : Page), bs < 2 ^ 31 →
      ((appendNewBlock bs file p).2.2).get_int 0 = some (bs : Int)) :=
  ⟨log_append_max_fit, log_append_overflow, appendNewBlock_boundary⟩

/-- Witness for the C3 amended theorem at `block_size = 32`: a 24-byte
record fits in the single block, a 25-byte record forces a second block,
and a fresh block's boundary is 32. -/
theorem log_append_boundary_witness :
    (∃ p : Page, (LogManager.newEmpty 32).append 32 (List.replicate 24 0) =
      some (1, ⟨[le4 (32 : Int) ++ List.replicate (32 - 4) 0], p, 0, 1, 0⟩) ∧
      p.data = le4 4 ++ le4 ((List.replicate (α := Nat) 24 0).length : Int) ++
        List.replicate 24 0) ∧
    (∃ st' : LogManagerState,
      (LogManager.newEmpty 32).append 32 (List.replicate 25 0) = some (1, st') ∧
      st'.file.length = 2 ∧ st'.currentBlockNum = 1 ∧
      st'.file.getD 0 [] = le4 (32 : Int) ++ List.replicate (32 - 4) 0) ∧
    ((appendNewBlock 32 [] (Page.new 32)).2.2).get_int 0 = some (32 : Int) :=
  ⟨log_append_boundary_behavior.1 32 (List.replicate 24 0) (by decide) (by decide) (by decide),
   log_append_boundary_behavior.2.1 32 (List.replicate 25 0) (by decide) (by decide) (by decide),
   log_append_boundary_behavior.2.2 32 [] (Page.new 32) (by decide)⟩

/-! ### Log layout representation (C5)

A log block's bytes are: the 4-byte boundary word, dead bytes, then the
records packed to the end of the block, newest at the boundary.  `recs`
lists a block's records in append order; `pack` lays a newest-first list
out from some offset.
-/

def sizeSum (recs : List (List Nat)) : Nat :=
  (recs.map (fun r => r.length + 4)).sum

def pack : List (List Nat) → List Nat
  | [] => []
  | r :: rest => le4 (r.length : Int) ++ r ++ pack rest

/-- `content` is a well-formed log block of `bs` bytes holding exactly the
records `recs` (append order). -/
def BlockRep (bs : Nat) (recs : List (List Nat)) (content : List Nat) : Prop :=
  4 + sizeSum recs ≤ bs ∧ content.length = bs ∧
  ∃ junk, junk.length = bs - sizeSum recs - 4 ∧
    content = le4 ((bs - sizeSum recs : Nat) : Int) ++ junk ++ pack recs.reverse

/-- The log manager's reachable states: `older` are the filled blocks
0..n-1 on disk (each nonempty), `current` the records of the in-memory
block n. -/
structure LogInv (bs : Nat) (st : LogManagerState) (older : List (List (List Nat)))
    (current : List (List Nat)) : Prop where
  file_len : st.file.length = older.length + 1
  cur_num : st.currentBlockNum = older.length
  older_rep : ∀ i, i < older.length →
    older.getD i [] ≠ [] ∧ BlockRep bs (older.getD i []) (st.file.getD i [])
  cur_rep : BlockRep bs current st.logPage.data

theorem sizeSum_nil : sizeSum [] = 0 := rfl

theorem sizeSum_append (a b : List (List Nat)) :
    sizeSum (a ++ b) = sizeSum a + sizeSum b := by
  unfold sizeSum
  rw [List.map_append, List.sum_append]

theorem sizeSum_reverse (l : List (List Nat)) : sizeSum l.reverse = sizeSum l := by
  unfold sizeSum
  rw [List.map_reverse, List.sum_reverse]

theorem pack_length (l : List (List Nat)) : (pack l).length = sizeSum l := by
  induction l with
  | nil => rfl
  | cons r rest ih =>
    show (le4 (r.length : Int) ++ r ++ pack rest).length = _
    simp only [List.length_append, le4_length, ih]
    show 4 + r.length + sizeSum rest = sizeSum (r :: rest)
    unfold sizeSum
    simp only [List.map, List.sum_cons]
    omega

theorem getD_set_ne {α : Type} (l : List α) (n i : Nat) (v d : α) (h : i ≠ n) :
    (l.set n v).getD i d = l.getD i d := by
  unfold List.getD
  rw [List.get?_set_ne v l (fun hc => h hc.symm)]

theorem getD_set_last {α : Type} (l : List α) (n : Nat) (v d : α) (h : n < l.length) :
    (l.set n v).getD n d = v := by
  unfold List.getD
  rw [List.get?_set_eq_of_lt v h]
  rfl

theorem getD_append_left {α : Type} (l₁ l₂ : List α) (i : Nat) (d : α)
    (h : i < l₁.length) : ((l₁ ++ l₂).getD i d) = l₁.getD i d := by
  unfold List.getD
  rw [List.get?_append h]

/-- Writing a record that fits into a well-formed block (via `set_bytes` at
the new boundary followed by `set_int 0`) yields a well-formed block whose
record list has the record appended. -/
theorem block_write_rep (bs : Nat) (cur : List (List Nat))
    (r junk d : List Nat) (pos : Nat)
    (hjlen : junk.length = bs - sizeSum cur - 4)
    (hd : d = le4 ((bs - sizeSum cur : Nat) : Int) ++ junk ++ pack cur.reverse)
    (hfit : 4 + sizeSum cur + (r.length + 4) ≤ bs)
    (hpos : pos = bs - sizeSum cur - (r.length + 4)) :
    ∃ content',
      ((Page.mk d).set_bytes pos r).set_int 0 ((pos : Nat) : Int) = Page.mk content' ∧
      BlockRep bs (cur ++ [r]) content' := by
  subst hpos
  have hdlen : d.length = bs := by
    rw [hd]
    simp only [List.length_append, le4_length, pack_length, sizeSum_reverse, List.length_replicate]
    omega
  have hprefl : (le4 ((bs - sizeSum cur : Nat) : Int) ++ junk).length = bs - sizeSum cur := by
    simp only [List.length_append, le4_length]
    omega
  have hssr : sizeSum (cur ++ [r]) = sizeSum cur + (r.length + 4) := by
    rw [sizeSum_append]
    show _ + sizeSum [r] = _
    unfold sizeSum
    simp
  have htake : d.take (bs - sizeSum cur - (r.length + 4)) =
      le4 ((bs - sizeSum cur : Nat) : Int) ++
        junk.take (bs - sizeSum cur - (r.length + 4) - 4) := by
    rw [hd, List.take_append_of_le_length (by rw [hprefl]; omega)]
    have e : bs - sizeSum cur - (r.length + 4)
        = (le4 ((bs - sizeSum cur : Nat) : Int)).length + (bs - sizeSum cur - (r.length + 4) - 4) := by
      simp only [le4_length]
      omega
    conv_lhs => rw [e, List.take_append]
  have hdropB : d.drop (bs - sizeSum cur - (r.length + 4) + 4 + r.length) = pack cur.reverse := by
    have e2 : bs - sizeSum cur - (r.length + 4) + 4 + r.length = bs - sizeSum cur := by omega
    rw [e2, hd, List.drop_left' hprefl]
  have hsb := set_bytes_splice d (bs - sizeSum cur - (r.length + 4)) r (by omega)
  rw [hsb, htake, hdropB]
  have hmidlen : (le4 ((bs - sizeSum cur : Nat) : Int) ++
      junk.take (bs - sizeSum cur - (r.length + 4) - 4) ++ le4 (r.length : Int) ++ r ++
      pack cur.reverse).length = bs := by
    simp only [List.length_append, le4_length, List.length_take, pack_length, sizeSum_reverse]
    omega
  rw [set_int_zero_splice _ _ (by rw [hmidlen]; omega)]
  refine ⟨_, rfl, ?_, ?_, ?_⟩
  · omega
  · simp only [List.length_append, le4_length, List.length_take, List.length_drop,
      pack_length, sizeSum_reverse]
    omega
  · refine ⟨junk.take (bs - sizeSum cur - (r.length + 4) - 4), ?_, ?_⟩
    · simp only [List.length_take]
      omega
    · have hdrop4 : (le4 ((bs - sizeSum cur : Nat) : Int) ++
          junk.take (bs - sizeSum cur - (r.length + 4) - 4) ++ le4 (r.length : Int) ++ r ++
          pack cur.reverse).drop 4
          = junk.take (bs - sizeSum cur - (r.length + 4) - 4) ++ le4 (r.length : Int) ++ r ++
            pack cur.reverse := by
        rw [show le4 ((bs - sizeSum cur : Nat) : Int) ++
            junk.take (bs - sizeSum cur - (r.length + 4) - 4) ++ le4 (r.length : Int) ++ r ++
            pack cur.reverse
            = le4 ((bs - sizeSum cur : Nat) : Int) ++
              (junk.take (bs - sizeSum cur - (r.length + 4) - 4) ++ le4 (r.length : Int) ++ r ++
              pack cur.reverse) from by simp [List.append_assoc]]
        exact List.drop_left' (le4_length _)
      rw [hdrop4]
      have hrev : (cur ++ [r]).reverse = r :: cur.reverse := by
        simp
      rw [hrev]
      show _ = le4 ((bs - sizeSum (cur ++ [r]) : Nat) : Int) ++ _ ++
        (le4 ((r.length : Nat) : Int) ++ r ++ pack cur.reverse)
      rw [show ((bs - sizeSum (cur ++ [r]) : Nat) : Int)
          = ((bs - sizeSum cur - (r.length + 4) : Nat) : Int) from by rw [hssr]; congr 1; omega]
      simp [List.append_assoc]

theorem getD_append_last {α : Type} (l : List α) (x d : α) :
    ((l ++ [x]).getD l.length d) = x := by
  unfold List.getD
  rw [List.get?_append_right (le_refl _)]
  simp

/-- A single `append` of a fitting record preserves the log invariant and
extends the record history by that record. -/
theorem append_inv (bs : Nat) (h8 : 8 ≤ bs) (h31 : bs < 2 ^ 31)
    (st : LogManagerState) (older : List (List (List Nat))) (current : List (List Nat))
    (r : List Nat) (hr : r.length + 8 ≤ bs) (hinv : LogInv bs st older current) :
    ∃ st' older' current', st.append bs r = some (st.latestLsn + 1, st') ∧
      st'.latestLsn = st.latestLsn + 1 ∧
      LogInv bs st' older' current' ∧
      older'.flatten ++ current' = (older.flatten ++ current) ++ [r] := by
  obtain ⟨hflen, hcnum, holder, hcur⟩ := hinv
  obtain ⟨hbound, hclen, junk, hjlen, hdata⟩ := hcur
  have hpg : st.logPage = Page.mk (le4 ((bs - sizeSum current : Nat) : Int) ++ junk ++
      pack current.reverse) := by
    have e : st.logPage = Page.mk st.logPage.data := rfl
    rw [e, hdata]
  have hget : (Page.mk (le4 ((bs - sizeSum current : Nat) : Int) ++ junk ++
      pack current.reverse)).get_int 0 = some ((bs - sizeSum current : Nat) : Int) := by
    have h := get_int_at [] (junk ++ pack current.reverse)
        ((bs - sizeSum current : Nat) : Int) 0 rfl (by omega) (by omega)
    simpa [List.append_assoc] using h
  unfold LogManagerState.append
  rw [hpg, hget]
  simp only [Option.pure_def, Option.bind_eq_bind, Option.some_bind]
  by_cases hcond : ((bs - sizeSum current : Nat) : Int) - ((r.length : Int) + 4) < 4
  · -- the record does not fit: flush the page, append a fresh block, write into it
    rw [if_pos hcond]
    have hsspos : 0 < sizeSum current := by omega
    have hcne : current ≠ [] := by
      intro hc
      subst hc
      simp [sizeSum] at hsspos
    have hrepC : BlockRep bs current (le4 ((bs - sizeSum current : Nat) : Int) ++ junk ++
        pack current.reverse) := ⟨hbound, by rw [← hdata]; exact hclen, junk, hjlen, rfl⟩
    unfold LogManagerState.inner_flush appendNewBlock fileWriteBlock
    simp only
    rw [hpg]
    have hset : (Page.mk (le4 ((bs - sizeSum current : Nat) : Int) ++ junk ++
        pack current.reverse)).set_int 0 ((bs : Nat) : Int)
        = Page.mk (le4 ((bs : Nat) : Int) ++ (junk ++ pack current.reverse)) := by
      rw [set_int_zero_splice _ _ (by
        simp only [List.length_append, le4_length]
        omega)]
      congr 2
    rw [hset]
    have hget2 : (Page.mk (le4 ((bs : Nat) : Int) ++
        (junk ++ pack current.reverse))).get_int 0 = some ((bs : Nat) : Int) := by
      have h := get_int_at [] (junk ++ pack current.reverse) ((bs : Nat) : Int) 0 rfl
        (by omega) (by omega)
      simpa [List.append_assoc] using h
    rw [hget2]
    simp only [Option.pure_def, Option.bind_eq_bind, Option.some_bind]
    have hposI : ((bs : Nat) : Int) - ((r.length : Int) + 4)
        = ((bs - (r.length + 4) : Nat) : Int) := by omega
    rw [hposI]
    have husz : usizeOfI32 ((bs - (r.length + 4) : Nat) : Int) = bs - (r.length + 4) := by
      rw [usizeOfI32_small (by omega) (by omega)]
      omega
    rw [husz]
    obtain ⟨content', heq, hrep⟩ := block_write_rep bs [] r (junk ++ pack current.reverse)
      (le4 ((bs : Nat) : Int) ++ (junk ++ pack current.reverse)) (bs - (r.length + 4))
      (by
        simp only [List.length_append, pack_length, sizeSum_reverse,
          show sizeSum ([] : List (List Nat)) = 0 from rfl]
        omega)
      (by
        simp only [show sizeSum ([] : List (List Nat)) = 0 from rfl, Nat.sub_zero,
          show pack (List.reverse []) = [] from rfl, List.append_nil])
      (by
        simp only [show sizeSum ([] : List (List Nat)) = 0 from rfl]
        omega)
      (by
        simp only [show sizeSum ([] : List (List Nat)) = 0 from rfl, Nat.sub_zero])
    rw [heq]
    refine ⟨_, older ++ [current], [r], rfl, rfl, ?_, ?_⟩
    · refine ⟨?_, ?_, ?_, hrep⟩
      · simp only [List.length_set, List.length_append, List.length_singleton]
        omega
      · simp only [List.length_set, List.length_append, List.length_singleton]
        omega
      · intro i hi
        simp only [List.length_append, List.length_singleton] at hi
        by_cases hilt : i < older.length
        · constructor
          · rw [getD_append_left _ _ _ _ hilt]
            exact (holder i hilt).1
          · rw [getD_append_left _ _ _ _ hilt]
            rw [getD_set_ne _ _ _ _ _ (by
              simp only [List.length_set]
              omega)]
            rw [getD_append_left _ _ _ _ (by
              simp only [List.length_set]
              omega)]
            rw [getD_set_ne _ _ _ _ _ (by omega)]
            exact (holder i hilt).2
        · have hieq : i = older.length := by omega
          subst hieq
          constructor
          · rw [getD_append_last]
            exact hcne
          · rw [getD_append_last]
            rw [getD_set_ne _ _ _ _ _ (by
              simp only [List.length_set]
              omega)]
            rw [getD_append_left _ _ _ _ (by
              simp only [List.length_set]
              omega)]
            rw [← hcnum, getD_set_last _ _ _ _ (by omega)]
            exact hrepC
    · show (older ++ [current]).flatten ++ [r] = _
      simp
  · -- the record fits in the current block
    rw [if_neg hcond]
    rw [hpg]
    have hposI : ((bs - sizeSum current : Nat) : Int) - ((r.length : Int) + 4)
        = ((bs - sizeSum current - (r.length + 4) : Nat) : Int) := by omega
    rw [hposI]
    have husz : usizeOfI32 ((bs - sizeSum current - (r.length + 4) : Nat) : Int)
        = bs - sizeSum current - (r.length + 4) := by
      rw [usizeOfI32_small (by omega) (by omega)]
      omega
    rw [husz]
    obtain ⟨content', heq, hrep⟩ := block_write_rep bs current r junk
      (le4 ((bs - sizeSum current : Nat) : Int) ++ junk ++ pack current.reverse)
      (bs - sizeSum current - (r.length + 4)) hjlen rfl (by omega) rfl
    rw [heq]
    refine ⟨_, older, current ++ [r], rfl, rfl, ?_, ?_⟩
    · exact ⟨hflen, hcnum, holder, hrep⟩
    · rw [List.append_assoc]

theorem appendAll_inv (bs : Nat) (h8 : 8 ≤ bs) (h31 : bs < 2 ^ 31) :
    ∀ (rs : List (List Nat)) (st : LogManagerState) (older : List (List (List Nat)))
      (current : List (List Nat)),
      (∀ r ∈ rs, r.length + 8 ≤ bs) → LogInv bs st older current →
      ∃ st' older' current', LogManagerState.appendAll bs st rs = some st' ∧
        LogInv bs st' older' current' ∧
        older'.flatten ++ current' = (older.flatten ++ current) ++ rs := by
  intro rs
  induction rs with
  | nil =>
    intro st older current _ hinv
    exact ⟨st, older, current, rfl, hinv, by simp⟩
  | cons r rest ih =>
    intro st older current hfit hinv
    obtain ⟨st1, older1, current1, happ, _, hinv1, hflat1⟩ :=
      append_inv bs h8 h31 st older current r (hfit r (by simp)) hinv
    obtain ⟨st2, older2, current2, hrun, hinv2, hflat2⟩ :=
      ih st1 older1 current1 (fun q hq => hfit q (by simp [hq])) hinv1
    refine ⟨st2, older2, current2, ?_, hinv2, ?_⟩
    · show (do
        let (_, st') ← st.append bs r
        LogManagerState.appendAll bs st' rest) = some st2
      rw [happ]
      simpa using hrun
    · rw [hflat2, hflat1]
      simp

theorem newEmpty_inv (bs : Nat) (h8 : 8 ≤ bs) :
    LogInv bs (LogManager.newEmpty bs) [] [] := by
  rw [newEmpty_eq bs (by omega)]
  refine ⟨rfl, rfl, by intro i hi; simp at hi, ?_, ?_, List.replicate (bs - 4) 0, ?_, ?_⟩
  · rw [show sizeSum ([] : List (List Nat)) = 0 from rfl]
    omega
  · exact d0_length bs (by omega)
  · simp only [List.length_replicate, show sizeSum ([] : List (List Nat)) = 0 from rfl]
    omega
  · simp only [show sizeSum ([] : List (List Nat)) = 0 from rfl, Nat.sub_zero,
      show pack (List.reverse []) = [] from rfl, List.append_nil]

theorem getD_eq_getD {α : Type} (l : List α) (i : Nat) (d1 d2 : α) (h : i < l.length) :
    l.getD i d1 = l.getD i d2 := by
  unfold List.getD
  rw [List.get?_eq_get h]
  rfl

/-- Consuming one block's records: from a position at the start of the
packed region `pack pendRev`, the iterator yields `pendRev` and stops at
`block_size` without touching the page, the file or the block number. -/
theorem collect_block (bs : Nat) :
    ∀ (pendRev : List (List Nat)) (fuel : Nat) (file : List (List Nat)) (num bnd : Nat)
      (junkPre d : List Nat) (pos : Nat),
      d = junkPre ++ pack pendRev → pos = junkPre.length →
      (∀ r ∈ pendRev, r.length + 4 ≤ bs) →
      junkPre.length + (pack pendRev).length = bs →
      bs < 2 ^ 31 →
      LogIterState.collect (pendRev.length + fuel) ⟨file, bs, num, Page.mk d, bnd, pos⟩ =
        pendRev ++ LogIterState.collect fuel ⟨file, bs, num, Page.mk d, bnd, bs⟩ := by
  intro pendRev
  induction pendRev with
  | nil =>
    intro fuel file num bnd junkPre d pos hd hpos hfit hlen h31
    have hpb : pos = bs := by
      rw [hpos]
      simpa [pack] using hlen
    rw [hpb]
    simp
  | cons r rest ih =>
    intro fuel file num bnd junkPre d pos hd hpos hfit hlen h31
    have hrlen : r.length + 4 ≤ bs := hfit r (by simp)
    have hpacklen : (pack (r :: rest)).length = r.length + 4 + (pack rest).length := by
      show (le4 (r.length : Int) ++ r ++ pack rest).length = _
      simp only [List.length_append, le4_length]
      omega
    have hposlt : pos < bs := by
      rw [hpos]
      omega
    have hd' : d = (junkPre ++ le4 (r.length : Int)) ++ (r ++ pack rest) := by
      rw [hd]
      show junkPre ++ (le4 (r.length : Int) ++ r ++ pack rest) = _
      simp [List.append_assoc]
    have hread : (⟨file, bs, num, Page.mk d, bnd, pos⟩ : LogIterState).read_record
        = some (r, ⟨file, bs, num, Page.mk d, bnd, pos + r.length + 4⟩) := by
      unfold LogIterState.read_record
      have hgb : (Page.mk d).get_bytes pos = some r := by
        rw [show Page.mk d = Page.mk (junkPre ++ le4 (r.length : Int) ++ (r ++ pack rest))
          from by rw [hd']]
        exact get_bytes_at junkPre r (pack rest) pos hpos.symm (by omega)
      rw [hgb]
    have hnext : (⟨file, bs, num, Page.mk d, bnd, pos⟩ : LogIterState).next
        = some (r, ⟨file, bs, num, Page.mk d, bnd, pos + r.length + 4⟩) := by
      unfold LogIterState.next
      rw [if_neg (by
        simp only [LogIterState.has_next]
        simp
        omega)]
      rw [if_neg (by simp only; omega)]
      exact hread
    rw [show (r :: rest).length + fuel = (rest.length + fuel) + 1 from by simp; omega]
    show (match (⟨file, bs, num, Page.mk d, bnd, pos⟩ : LogIterState).next with
      | none => []
      | some (rec, st') => rec :: LogIterState.collect (rest.length + fuel) st') = _
    rw [hnext]
    simp only
    rw [ih fuel file num bnd (junkPre ++ le4 (r.length : Int) ++ r) d (pos + r.length + 4)
      (by rw [hd']; simp [List.append_assoc])
      (by simp only [List.length_append, le4_length]; omega)
      (fun q hq => hfit q (by simp [hq]))
      (by simp only [List.length_append, le4_length]; omega)
      h31]
    rfl

theorem collect_succ (fuel : Nat) (st : LogIterState) :
    LogIterState.collect (fuel + 1) st =
      match st.next with
      | none => []
      | some (r, st') => r :: LogIterState.collect fuel st' := rfl

theorem collect_next_eq (st st' : LogIterState) (h : st.next = st'.next) (fuel : Nat) :
    LogIterState.collect fuel st = LogIterState.collect fuel st' := by
  cases fuel with
  | zero => rfl
  | succ f => rw [collect_succ, collect_succ, h]

theorem collect_of_next_none (st : LogIterState) (h : st.next = none) (fuel : Nat) :
    LogIterState.collect fuel st = [] := by
  cases fuel with
  | zero => rfl
  | succ f => rw [collect_succ, h]

theorem sizeSum_cons (x : List Nat) (xs : List (List Nat)) :
    sizeSum (x :: xs) = x.length + 4 + sizeSum xs := by
  unfold sizeSum
  simp only [List.map_cons, List.sum_cons]

theorem sizeSum_mem_le (r : List Nat) (l : List (List Nat)) (h : r ∈ l) :
    r.length + 4 ≤ sizeSum l := by
  induction l with
  | nil => simp at h
  | cons x xs ih =>
    rw [sizeSum_cons]
    rcases List.mem_cons.mp h with h1 | h2
    · subst h1
      omega
    · have := ih h2
      omega

/-- `move_to_block` on a block holding a well-formed record region lands
on its boundary. -/
theorem move_to_block_rep (bs : Nat) (h31 : bs < 2 ^ 31)
    (file : List (List Nat)) (num0 n bnd pos : Nat) (pg : Page)
    (recs : List (List Nat)) (junk : List Nat)
    (hn : n < file.length)
    (hrd : file.getD n [] =
      le4 ((bs - sizeSum recs : Nat) : Int) ++ junk ++ pack recs.reverse)
    (hbound : 4 + sizeSum recs ≤ bs) :
    LogIterState.move_to_block ⟨file, bs, num0, pg, bnd, pos⟩ n
      = ⟨file, bs, n,
          Page.mk (le4 ((bs - sizeSum recs : Nat) : Int) ++ junk ++ pack recs.reverse),
          bs - sizeSum recs, bs - sizeSum recs⟩ := by
  have h1 : LogIterState.move_to_block ⟨file, bs, num0, pg, bnd, pos⟩ n
      = ⟨file, bs, n, fileReadBlock file n pg,
          usizeOfI32 (((fileReadBlock file n pg).get_int 0).getD 0),
          usizeOfI32 (((fileReadBlock file n pg).get_int 0).getD 0)⟩ := rfl
  have hpg : fileReadBlock file n pg
      = Page.mk (le4 ((bs - sizeSum recs : Nat) : Int) ++ junk ++ pack recs.reverse) := by
    unfold fileReadBlock
    rw [getD_eq_getD file n pg.data [] hn, hrd]
  have hgi : (Page.mk (le4 ((bs - sizeSum recs : Nat) : Int) ++ junk ++
      pack recs.reverse)).get_int 0 = some ((bs - sizeSum recs : Nat) : Int) := by
    have h := get_int_at [] (junk ++ pack recs.reverse) ((bs - sizeSum recs : Nat) : Int) 0
      rfl (by omega) (by omega)
    simpa [List.append_assoc] using h
  rw [h1, hpg, hgi]
  simp only [Option.getD_some]
  rw [usizeOfI32_small (by omega) (by omega)]
  simp only [Int.toNat_natCast]

/-- Walking the filled blocks below the current one: from a state whose
position sits at `block_size` on block `blocks.length`, the iterator
yields the records of blocks `blocks.length - 1, …, 0`, each block newest
first — the reverse of the concatenated history — and then ends (surplus
fuel yields nothing further). -/
theorem collect_exhausted (bs : Nat) (h8 : 8 ≤ bs) (h31 : bs < 2 ^ 31) :
    ∀ (blocks : List (List (List Nat))) (file : List (List Nat)) (page : Page)
      (bnd fuel : Nat),
      (∀ i, i < blocks.length →
        blocks.getD i [] ≠ [] ∧ BlockRep bs (blocks.getD i []) (file.getD i [])) →
      LogIterState.collect (blocks.flatten.length + fuel)
          ⟨file, bs, blocks.length, page, bnd, bs⟩ = blocks.flatten.reverse := by
  intro blocks
  induction blocks using List.reverseRecOn with
  | nil =>
    intro file page bnd fuel _
    have hnone : (⟨file, bs, 0, page, bnd, bs⟩ : LogIterState).next = none := by
      unfold LogIterState.next
      rw [if_pos (by simp [LogIterState.has_next])]
    simp only [List.flatten_nil, List.length_nil, List.reverse_nil, Nat.zero_add]
    exact collect_of_next_none _ hnone fuel
  | append_singleton blocks B ih =>
    intro file page bnd fuel hrep
    have hlast := hrep blocks.length (by simp)
    rw [getD_append_last] at hlast
    obtain ⟨hBne, hBbound, hBclen, junkB, hjBlen, hdBeq⟩ := hlast
    have hBpos : 0 < sizeSum B := by
      cases B with
      | nil => exact absurd rfl hBne
      | cons x xs =>
        rw [sizeSum_cons]
        omega
    have hfl : blocks.length < file.length := by
      by_contra hc
      push_neg at hc
      rw [show file.getD blocks.length [] = [] from by
        unfold List.getD
        rw [List.get?_eq_none.mpr hc]
        rfl] at hBclen
      simp at hBclen
      omega
    have hmv := move_to_block_rep bs h31 file (blocks.length + 1) blocks.length bnd bs page
      B junkB hfl hdBeq hBbound
    have hL : (⟨file, bs, blocks.length + 1, page, bnd, bs⟩ : LogIterState).next
        = (⟨file, bs, blocks.length,
            Page.mk (le4 ((bs - sizeSum B : Nat) : Int) ++ junkB ++ pack B.reverse),
            bs - sizeSum B, bs - sizeSum B⟩ : LogIterState).read_record := by
      unfold LogIterState.next
      rw [if_neg (by simp [LogIterState.has_next])]
      rw [if_pos rfl]
      simp only [Nat.add_sub_cancel]
      rw [hmv]
    have hR : (⟨file, bs, blocks.length,
          Page.mk (le4 ((bs - sizeSum B : Nat) : Int) ++ junkB ++ pack B.reverse),
          bs - sizeSum B, bs - sizeSum B⟩ : LogIterState).next
        = (⟨file, bs, blocks.length,
            Page.mk (le4 ((bs - sizeSum B : Nat) : Int) ++ junkB ++ pack B.reverse),
            bs - sizeSum B, bs - sizeSum B⟩ : LogIterState).read_record := by
      unfold LogIterState.next
      rw [if_neg (by
        simp only [LogIterState.has_next]
        simp
        omega)]
      rw [if_neg (by
        simp only
        omega)]
    have hfuel : (blocks ++ [B]).flatten.length + fuel
        = B.reverse.length + (blocks.flatten.length + fuel) := by
      simp [List.flatten_append]
      omega
    simp only [List.length_append, List.length_singleton]
    rw [hfuel, collect_next_eq _ _ (hL.trans hR.symm) _]
    rw [collect_block bs B.reverse (blocks.flatten.length + fuel) file blocks.length
      (bs - sizeSum B) (le4 ((bs - sizeSum B : Nat) : Int) ++ junkB)
      (le4 ((bs - sizeSum B : Nat) : Int) ++ junkB ++ pack B.reverse) (bs - sizeSum B)
      rfl
      (by
        simp only [List.length_append, le4_length, hjBlen]
        omega)
      (by
        intro q hq
        have := sizeSum_mem_le q B (List.mem_reverse.mp hq)
        omega)
      (by
        simp only [List.length_append, le4_length, hjBlen, pack_length, sizeSum_reverse]
        omega)
      h31]
    rw [ih file (Page.mk (le4 ((bs - sizeSum B : Nat) : Int) ++ junkB ++ pack B.reverse))
      (bs - sizeSum B) fuel (by
        intro i hi
        have h := hrep i (by
          simp only [List.length_append, List.length_singleton]
          omega)
        rw [getD_append_left _ _ _ _ hi] at h
        exact h)]
    simp [List.flatten_append, List.reverse_append]

/-- C5 counterexample: the claim quantifies over *every* sequence of
appended records, but a record of `block_size - 4` bytes (here 28 bytes at
`block_size = 32`) is written at position 0 of a fresh block, so the
subsequent `set_int(0, record_pos)` overwrites the record's own length
prefix with the boundary `0`.  Iteration then reads a zero-length record:
it yields `[[]]`, not the appended 28-byte payload. -/
theorem log_iter_drops_oversized_record :
    (LogManagerState.appendAll 32 (LogManager.newEmpty 32) [List.replicate 28 7]).map
        (fun st => LogIterState.collect 1 (LogManagerState.iter 32 st).2) = some [[]] ∧
      ([[]] : List (List Nat)) ≠ [List.replicate 28 7] := by
  constructor
  · decide
  · decide

/-- C5 (amended to records of at most `block_size - 8` bytes, the largest
that fit a block): starting from an empty log, after appending any such
sequence of records the iterator obtained from `iter()` (which flushes the
current block first) yields exactly the appended byte payloads in reverse
append order — newest first, the current block first, then earlier blocks
until block 0 is exhausted — and then ends: any fuel beyond the record
count yields nothing further. -/
theorem log_iter_reverse_of_fitting (bs : Nat) (h8 : 8 ≤ bs) (h31 : bs < 2 ^ 31)
    (rs : List (List Nat)) (hfit : ∀ r ∈ rs, r.length + 8 ≤ bs) :
    ∃ st : LogManagerState,
      LogManagerState.appendAll bs (LogManager.newEmpty bs) rs = some st ∧
      ∀ fuel, rs.length ≤ fuel →
        LogIterState.collect fuel (LogManagerState.iter bs st).2 = rs.reverse := by
  obtain ⟨st, older, current, hrun, hinv, hflat⟩ :=
    appendAll_inv bs h8 h31 rs (LogManager.newEmpty bs) [] [] hfit (newEmpty_inv bs h8)
  refine ⟨st, hrun, ?_⟩
  intro fuel hfuel
  obtain ⟨hflen, hcnum, holder, hcur⟩ := hinv
  obtain ⟨hbound, hclen, junk, hjlen, hdata⟩ := hcur
  simp only [List.flatten_nil, List.nil_append] at hflat
  have hiter : (LogManagerState.iter bs st).2
      = LogIterState.move_to_block
          ⟨st.file.set st.currentBlockNum st.logPage.data, bs, st.currentBlockNum,
            Page.new bs, 0, 0⟩ st.currentBlockNum := rfl
  have hcnumlt : st.currentBlockNum < st.file.length := by omega
  have hread_cur : (st.file.set st.currentBlockNum st.logPage.data).getD
        st.currentBlockNum []
      = le4 ((bs - sizeSum current : Nat) : Int) ++ junk ++ pack current.reverse := by
    rw [getD_set_last _ _ _ _ hcnumlt, hdata]
  have hmv := move_to_block_rep bs h31 (st.file.set st.currentBlockNum st.logPage.data)
    st.currentBlockNum st.currentBlockNum 0 0 (Page.new bs) current junk
    (by
      simp only [List.length_set]
      exact hcnumlt)
    hread_cur hbound
  rw [hiter, hmv]
  have hlen_rs : older.flatten.length + current.length = rs.length := by
    rw [← hflat]
    simp
  have hfuel_eq : fuel
      = current.reverse.length + (older.flatten.length + (fuel - rs.length)) := by
    simp only [List.length_reverse]
    omega
  rw [hfuel_eq]
  rw [collect_block bs current.reverse (older.flatten.length + (fuel - rs.length))
    (st.file.set st.currentBlockNum st.logPage.data) st.currentBlockNum
    (bs - sizeSum current)
    (le4 ((bs - sizeSum current : Nat) : Int) ++ junk)
    (le4 ((bs - sizeSum current : Nat) : Int) ++ junk ++ pack current.reverse)
    (bs - sizeSum current)
    rfl
    (by
      simp only [List.length_append, le4_length, hjlen]
      omega)
    (by
      intro q hq
      have := sizeSum_mem_le q current (List.mem_reverse.mp hq)
      omega)
    (by
      simp only [List.length_append, le4_length, hjlen, pack_length, sizeSum_reverse]
      omega)
    h31]
  rw [hcnum]
  rw [collect_exhausted bs h8 h31 older (st.file.set older.length st.logPage.data)
    (Page.mk (le4 ((bs - sizeSum current : Nat) : Int) ++ junk ++ pack current.reverse))
    (bs - sizeSum current) (fuel - rs.length)
    (by
      intro i hi
      have h := holder i hi
      rw [getD_set_ne _ _ _ _ _ (by omega)]
      exact h)]
  rw [← hflat]
  simp [List.reverse_append]

/-- Witness for the amended C5 theorem: appending `[1]` then `[2, 3]` at
`block_size = 32` and iterating yields `[[2, 3], [1]]` — newest first. -/
theorem log_iter_reverse_witness :
    LogIterState.collect 2
      (LogManagerState.iter 32 ((LogManagerState.appendAll 32 (LogManager.newEmpty 32)
        [[1], [2, 3]]).getD (LogManager.newEmpty 32))).2 = [[2, 3], [1]] := by
  obtain ⟨st, hrun, hcoll⟩ := log_iter_reverse_of_fitting 32 (by decide) (by decide)
    [[1], [2, 3]] (by decide)
  rw [hrun]
  simpa using hcoll 2 (by decide)

/-! ## Recovery manager and log records (`src/tx/recovery/…`)

Rust `String`s are embedded as their UTF-8 byte lists: `Page::set_string`
is `set_bytes` on `value.as_bytes()`, `Page::get_string` is `get_bytes`
followed by a UTF-8 decode whose failure channel coincides with the
read-panic channel already modelled by `Option`. -/

def Page.set_string (p : Page) (offset : Nat) (s : List Nat) : Page :=
  p.set_bytes offset s

def Page.get_string (p : Page) (offset : Nat) : Option (List Nat) :=
  p.get_bytes offset

/-- `BlockId` as the recovery records see it: a parsed filename (byte
list) and a block number. -/
structure LogBlockId where
  filename : List Nat
  num : Int
deriving Repr, DecidableEq

/-- The `pin` / `set_int(..., ok_to_log = false)` / `set_string(...)` /
`unpin` calls a log record's `undo(tx)` issues against the transaction. -/
inductive UndoAction where
  | pin (block : LogBlockId)
  | setIntU (block : LogBlockId) (offset : Int) (value : Int)
  | setStringU (block : LogBlockId) (offset : Int) (value : List Nat)
  | unpin (block : LogBlockId)
deriving Repr, DecidableEq

/-- A parsed log record (`Box<dyn LogRecord>` downcast to its variant). -/
inductive ParsedLogRecord where
  | checkpoint
  | start (tx_num : Int)
  | commit (tx_num : Int)
  | rollback (tx_num : Int)
  | setInt (tx_num : Int) (block : LogBlockId) (offset : Int) (value : Int)
  | setString (tx_num : Int) (block : LogBlockId) (offset : Int) (value : List Nat)
deriving Repr, DecidableEq

/-- `LogRecord::op` as the `LogRecordType` discriminant
(`Checkpoint = 0, Start = 1, Commit = 2, Rollback = 3, SetInt = 4,
SetString = 5`). -/
def ParsedLogRecord.op : ParsedLogRecord → Nat
  | .checkpoint => 0
  | .start _ => 1
  | .commit _ => 2
  | .rollback _ => 3
  | .setInt _ _ _ _ => 4
  | .setString _ _ _ _ => 5

/-- `LogRecord::tx_number` (`CheckpointRecord` answers `-1`). -/
def ParsedLogRecord.tx_number : ParsedLogRecord → Int
  | .checkpoint => -1
  | .start tx => tx
  | .commit tx => tx
  | .rollback tx => tx
  | .setInt tx _ _ _ => tx
  | .setString tx _ _ _ => tx

/-- `LogRecord::undo`: `SetIntRecord` pins, restores the old value
unlogged and unpins; `SetStringRecord` does the same but then hits the
`todo!()` at the end of its `undo`, a panic (`none`); the other records
do nothing. -/
def ParsedLogRecord.undo : ParsedLogRecord → Option (List UndoAction)
  | .setInt _ b off v => some [.pin b, .setIntU b off v, .unpin b]
  | .setString _ _ _ _ => none
  | _ => some []

/-- `create_log_record`: read the type tag (`get_int(0) as u8`), then
parse the variant exactly as each record's `new` does.  `StartRecord`,
`CommitRecord` and `RollbackRecord` read their `tx_num` at offset 0 — the
tag word — rather than offset `I32_SIZE` where `write_to_log` put it.
`SetIntRecord::new` and `SetStringRecord::new` read `tx_num` at offset 4,
the filename at 8, then block number, offset and value
(`SetStringRecord` casts the block number through `as u64`).  An unknown
tag `bail!`s; failed reads panic — both are `none`. -/
def create_log_record (bytes : List Nat) : Option ParsedLogRecord := do
  let page : Page := ⟨bytes⟩
  let op ← page.get_int 0
  match u8OfI32 op with
  | 0 => some .checkpoint
  | 1 => do
    let tx ← page.get_int 0
    some (.start tx)
  | 2 => do
    let tx ← page.get_int 0
    some (.commit tx)
  | 3 => do
    let tx ← page.get_int 0
    some (.rollback tx)
  | 4 => do
    let tx ← page.get_int 4
    let filename ← page.get_string 8
    let bpos := 8 + Page.max_length filename.length
    let block_num ← page.get_int bpos
    let offset ← page.get_int (bpos + 4)
    let value ← page.get_int (bpos + 8)
    some (.setInt tx ⟨filename, block_num⟩ offset value)
  | 5 => do
    let tx ← page.get_int 4
    let filename ← page.get_string 8
    let bpos := 8 + Page.max_length filename.length
    let block_num ← page.get_int bpos
    let offset ← page.get_int (bpos + 4)
    let value ← page.get_string (bpos + 8)
    some (.setString tx ⟨filename, (usizeOfI32 block_num : Nat)⟩ offset value)
  | _ => none

/-- `StartRecord::write_to_log`: a 4-byte page receives the tag at 0 and
`tx_num` at 4 — the second `set_int` grows the page to 8 bytes. -/
def StartRecord.write_to_log (bs : Nat) (lm : LogManagerState) (tx : Int) :
    Option LogManagerState := do
  let page := ((Page.new 4).set_int 0 1).set_int 4 tx
  let (_, lm') ← lm.append bs page.contents
  some lm'

/-- `CommitRecord::write_to_log`: tag `Commit = 2` at 0, `tx_num` at 4,
returning the LSN. -/
def CommitRecord.write_to_log (bs : Nat) (lm : LogManagerState) (tx : Int) :
    Option (Int × LogManagerState) := do
  let page := ((Page.new 8).set_int 0 2).set_int 4 tx
  lm.append bs page.contents

/-- `RollbackRecord::write_to_log` — which writes
`LogRecordType::Checkpoint as i32` (0) as its tag, not `Rollback`. -/
def RollbackRecord.write_to_log (bs : Nat) (lm : LogManagerState) (tx : Int) :
    Option LogManagerState := do
  let page := ((Page.new 8).set_int 0 0).set_int 4 tx
  let (_, lm') ← lm.append bs page.contents
  some lm'

/-- `SetIntRecord::write_to_log`. -/
def SetIntRecord.write_to_log (bs : Nat) (lm : LogManagerState) (tx : Int)
    (block : LogBlockId) (offset value : Int) : Option (Int × LogManagerState) :=
  let tpos := 4
  let fpos := tpos + 4
  let bpos := fpos + Page.max_length block.filename.length
  let opos := bpos + 4
  let vpos := opos + 4
  let record_len := vpos + 4
  let page := ((((((Page.new record_len).set_int 0 4).set_int tpos tx).set_string
    fpos block.filename).set_int bpos block.num).set_int opos offset).set_int vpos value
  lm.append bs page.contents

/-- The `for bytes in iter` loop of `RecoveryManager::do_rollback`,
accumulating the undo calls: parse each record; if its transaction number
matches, stop at a `Start` record, otherwise undo it.  Fuel bounds the
iteration; exhausting the fuel with the iterator still live is `none`, so
a `some` result is the loop's genuine outcome. -/
def do_rollback_go (tx : Int) : Nat → LogIterState → List UndoAction →
    Option (List UndoAction)
  | 0, it, acc => if it.has_next then none else some acc
  | fuel + 1, it, acc =>
    if ¬ it.has_next then some acc
    else
      match it.next with
      | none => none
      | some (bytes, it') =>
        match create_log_record bytes with
        | none => none
        | some record =>
          if record.tx_number = tx then
            if record.op = 1 then some acc
            else
              match record.undo with
              | none => none
              | some acts => do_rollback_go tx fuel it' (acc ++ acts)
          else do_rollback_go tx fuel it' acc

/-- `RecoveryManager::rollback`: `do_rollback` (whose `iter()` flushes the
log first), then `buffer_manager.flush_all(tx_num)`, then
`CommitRecord::write_to_log` — the source appends a *commit* record here —
then `log_manager.flush(lsn)`. -/
def RecoveryManager.rollback (bs fuel : Nat) (tx : Int) (lm : LogManagerState)
    (pool : List Buffer) :
    Option (List UndoAction × List WalEvent × List Buffer × LogManagerState) := do
  let (lm1, it) := lm.iter bs
  let acts ← do_rollback_go tx fuel it []
  let (pool', trace) ← BufferManager.flush_all pool tx
  let (lsn, lm2) ← CommitRecord.write_to_log bs lm1 tx
  let lm3 := lm2.flush lsn
  some (acts, trace, pool', lm3)

set_option maxRecDepth 8192 in
/-- C1: the rollback pipeline on a transaction (here tx 9) that started
and logged one `SetInt` old value.  The reverse iteration does undo the
stored old value (`pin`, unlogged `set_int` of 7, `unpin`), but the
record appended afterwards is a `CommitRecord` — tag 2, not the claimed
`Rollback(tx#)` (tag 3).  Two further slips: the appended bytes carry tag
`Commit` with tx 9, yet parse back as `commit 2` because
`CommitRecord::new` reads `tx_num` at offset 0 (the tag), and a freshly
written `Start(9)` record parses as `start 1` for the same reason, so the
loop never recognises transaction 9's `Start` record and only terminates
by exhausting the log. -/
theorem rollback_appends_commit_not_rollback :
    ((do
      let lm1 ← StartRecord.write_to_log 64 (LogManager.newEmpty 64) 9
      let (_, lm2) ← SetIntRecord.write_to_log 64 lm1 9 ⟨[102], 0⟩ 0 7
      let (acts, _, _, lm3) ← RecoveryManager.rollback 64 5 9 lm2 []
      let (_, it) := lm3.iter 64
      let (bytes, _) ← it.next
      let record ← create_log_record bytes
      some (acts, bytes, record)) :
        Option (List UndoAction × List Nat × ParsedLogRecord))
      = some ([.pin ⟨[102], 0⟩, .setIntU ⟨[102], 0⟩ 0 7, .unpin ⟨[102], 0⟩],
          [2, 0, 0, 0, 9, 0, 0, 0], .commit 2) ∧
    (ParsedLogRecord.commit 2).op ≠ 3 ∧
    create_log_record (((Page.new 4).set_int 0 1).set_int 4 9).contents
      = some (.start 1) := by
  refine ⟨by decide, by decide, by decide⟩

/-! ## TableScan construction (`src/record/table_scan.rs`,
`src/record/record_page.rs`)

The slice of `Transaction` that `TableScan::new` exercises: file block
counts (`size` / `append` over `FileManager::block_count` /
`append_block`), buffer pins, and the `set_int` / `set_string` calls with
their `ok_to_log` flag, recorded in program order.  Lock acquisition
inside `size`, `append`, `set_int` and `set_string` is elided: a single
transaction's repeated lock requests always succeed (see the concurrency
manager development above).  `set_int` / `set_string` `bail!("buffer not
found")` when the target block is not pinned. -/

inductive TxValue where
  | intV (v : Int)
  | strV (s : String)
deriving DecidableEq

structure TxWrite where
  block : BlockId
  offset : Int
  value : TxValue
  okToLog : Bool
deriving DecidableEq

structure TxS where
  block_size : Int
  files : List (String × Nat)
  pinned : List BlockId
  writes : List TxWrite
deriving DecidableEq

/-- `Transaction::size` → `FileManager::block_count` (a missing file is
created empty and reads as zero blocks). -/
def TxS.size (tx : TxS) (filename : String) : Nat :=
  (lookupAssoc tx.files filename).getD 0

/-- `Transaction::append` → `FileManager::append_block`: the new block's
number is the old block count and the file grows by one zeroed block. -/
def TxS.append (tx : TxS) (filename : String) : BlockId × TxS :=
  let n := tx.size filename
  (⟨filename, (n : Int)⟩, { tx with files := insertAssoc tx.files filename (n + 1) })

/-- `Transaction::pin` → `BufferList::pin` records one pin entry. -/
def TxS.pin (tx : TxS) (block : BlockId) : TxS :=
  { tx with pinned := tx.pinned ++ [block] }

/-- `Transaction::unpin` → `BufferList::unpin` drops the entry made by
the matching `pin`. -/
def TxS.unpin (tx : TxS) (block : BlockId) : TxS :=
  { tx with pinned := tx.pinned.eraseP (fun b => b = block) }

/-- `Transaction::set_int` (with its `ok_to_log` flag). -/
def TxS.set_int (tx : TxS) (block : BlockId) (offset v : Int) (okToLog : Bool) :
    Option TxS :=
  if block ∈ tx.pinned then
    some { tx with writes := tx.writes ++ [⟨block, offset, .intV v, okToLog⟩] }
  else none

/-- `Transaction::set_string` (with its `ok_to_log` flag). -/
def TxS.set_string (tx : TxS) (block : BlockId) (offset : Int) (s : String)
    (okToLog : Bool) : Option TxS :=
  if block ∈ tx.pinned then
    some { tx with writes := tx.writes ++ [⟨block, offset, .strV s, okToLog⟩] }
  else none

structure RecordPageM where
  block : BlockId
  layout : Layout

/-- `RecordPage::new` pins the block. -/
def RecordPageM.new (tx : TxS) (block : BlockId) (layout : Layout) :
    RecordPageM × TxS :=
  (⟨block, layout⟩, tx.pin block)

/-- `RecordPage::offset`. -/
def RecordPageM.offset (rp : RecordPageM) (slot : Int) : Int :=
  rp.layout.slot_size * slot

/-- `RecordPage::is_valid_slot`. -/
def RecordPageM.is_valid_slot (rp : RecordPageM) (tx : TxS) (slot : Int) : Bool :=
  rp.offset (slot + 1) ≤ tx.block_size

/-- The field loop inside `RecordPage::format`: clear every field of one
slot to `0` / `""`, unlogged. -/
def formatFields (rp : RecordPageM) (slot : Int) :
    TxS → List String → Option TxS
  | tx, [] => some tx
  | tx, f :: rest => do
    let off ← rp.layout.offset f
    let ftype ← rp.layout.schema.ftypeOf f
    let tx' ←
      match ftype with
      | .integer => tx.set_int rp.block (rp.offset slot + off) 0 false
      | .varchar => tx.set_string rp.block (rp.offset slot + off) "" false
    formatFields rp slot tx' rest

/-- The `while is_valid_slot` loop of `RecordPage::format`: set the
slot's flag to `Empty` (0), unlogged, clear its fields, move on.  Fuel
bounds the loop; exhausting it with a valid slot still pending is
`none`, so a `some` result is the loop's genuine outcome. -/
def RecordPageM.formatGo (rp : RecordPageM) : Nat → Int → TxS → Option TxS
  | 0, slot, tx => if rp.is_valid_slot tx slot then none else some tx
  | fuel + 1, slot, tx =>
    if rp.is_valid_slot tx slot then do
      let tx1 ← tx.set_int rp.block (rp.offset slot) 0 false
      let tx2 ← formatFields rp slot tx1 rp.layout.schema.fields
      rp.formatGo fuel (slot + 1) tx2
    else some tx

/-- `RecordPage::format`: fuel `block_size + 1` covers every slot, since
a valid slot number stays below `block_size` whenever `slot_size ≥ 1`. -/
def RecordPageM.format (rp : RecordPageM) (tx : TxS) : Option TxS :=
  rp.formatGo (tx.block_size.toNat + 1) 0 tx

structure TableScanM where
  layout : Layout
  rp : Option RecordPageM
  file_name : String
  current_slot : Int

/-- `TableScan::close` unpins the current record page's block. -/
def TableScanM.close (s : TableScanM) (tx : TxS) : TableScanM × TxS :=
  match s.rp with
  | none => ({ s with rp := none }, tx)
  | some rp => ({ s with rp := none }, tx.unpin rp.block)

/-- `TableScan::move_to_new_block`: close, append a block, open a record
page on it (pinning it), format it, land on slot `-1`. -/
def TableScanM.move_to_new_block (s : TableScanM) (tx : TxS) :
    Option (TableScanM × TxS) := do
  let (s, tx) := s.close tx
  let (block_id, tx) := tx.append s.file_name
  let (rp, tx) := RecordPageM.new tx block_id s.layout
  let tx ← rp.format tx
  some ({ s with rp := some rp, current_slot := -1 }, tx)

/-- `TableScan::move_to_block`. -/
def TableScanM.move_to_block (s : TableScanM) (tx : TxS) (block_num : Int) :
    TableScanM × TxS :=
  let (s, tx) := s.close tx
  let block_id : BlockId := ⟨s.file_name, block_num⟩
  let (rp, tx) := RecordPageM.new tx block_id s.layout
  ({ s with rp := some rp, current_slot := -1 }, tx)

/-- `TableScan::new`: derive the file name, then move to a fresh
formatted block when the file is empty, to block 0 otherwise. -/
def TableScanM.new (tx : TxS) (table_name : String) (layout : Layout) :
    Option (TableScanM × TxS) :=
  let file_name := table_name ++ ".tbl"
  let scan : TableScanM := ⟨layout, none, file_name, -1⟩
  if tx.size file_name = 0 then scan.move_to_new_block tx
  else some (scan.move_to_block tx 0)

theorem optBind_some {α β : Type} (a : α) (f : α → Option β) :
    (some a).bind f = f a := rfl

theorem formatFields_cons (rp : RecordPageM) (slot : Int) (tx : TxS) (f : String)
    (rest : List String) :
    formatFields rp slot tx (f :: rest)
      = (rp.layout.offset f).bind (fun off =>
          (rp.layout.schema.ftypeOf f).bind (fun ftype =>
            (match ftype with
             | .integer => tx.set_int rp.block (rp.offset slot + off) 0 false
             | .varchar => tx.set_string rp.block (rp.offset slot + off) "" false).bind
              (fun tx' => formatFields rp slot tx' rest))) := by
  simp only [formatFields]
  cases rp.layout.offset f with
  | none => rfl
  | some off =>
    cases rp.layout.schema.ftypeOf f with
    | none => rfl
    | some ftype =>
      cases ftype with
      | integer => rfl
      | varchar => rfl

theorem formatGo_succ (rp : RecordPageM) (fuel : Nat) (slot : Int) (tx : TxS) :
    rp.formatGo (fuel + 1) slot tx
      = if rp.is_valid_slot tx slot then
          (tx.set_int rp.block (rp.offset slot) 0 false).bind (fun tx1 =>
            (formatFields rp slot tx1 rp.layout.schema.fields).bind (fun tx2 =>
              rp.formatGo fuel (slot + 1) tx2))
        else some tx := rfl

theorem formatFields_spec (rp : RecordPageM) (slot : Int) :
    ∀ (fs : List String) (tx : TxS),
      (∀ f ∈ fs, (rp.layout.offset f).isSome ∧ (rp.layout.schema.ftypeOf f).isSome) →
      rp.block ∈ tx.pinned →
      ∃ ws, formatFields rp slot tx fs
          = some ⟨tx.block_size, tx.files, tx.pinned, tx.writes ++ ws⟩ ∧
        (∀ w ∈ ws, w.okToLog = false ∧ w.block = rp.block) ∧
        ∀ f ∈ fs, ∀ off, rp.layout.offset f = some off →
          ((rp.layout.schema.ftypeOf f = some .integer →
             (⟨rp.block, rp.offset slot + off, .intV 0, false⟩ : TxWrite) ∈ ws) ∧
           (rp.layout.schema.ftypeOf f = some .varchar →
             (⟨rp.block, rp.offset slot + off, .strV "", false⟩ : TxWrite) ∈ ws)) := by
  intro fs
  induction fs with
  | nil =>
    intro tx _ _
    refine ⟨[], ?_, by simp, by simp⟩
    rw [List.append_nil]
    rfl
  | cons f rest ih =>
    intro tx hres hpin
    obtain ⟨hoffS, htyS⟩ := hres f (by simp)
    obtain ⟨off0, hoff0⟩ := Option.isSome_iff_exists.mp hoffS
    obtain ⟨ft0, hft0⟩ := Option.isSome_iff_exists.mp htyS
    have hstep : ∀ w : TxWrite,
        (match ft0 with
         | FieldTypes.integer => tx.set_int rp.block (rp.offset slot + off0) 0 false
         | FieldTypes.varchar => tx.set_string rp.block (rp.offset slot + off0) "" false)
          = some ⟨tx.block_size, tx.files, tx.pinned, tx.writes ++ [w]⟩ →
        w.okToLog = false → w.block = rp.block →
        ((ft0 = .integer → w = ⟨rp.block, rp.offset slot + off0, .intV 0, false⟩) ∧
         (ft0 = .varchar → w = ⟨rp.block, rp.offset slot + off0, .strV "", false⟩)) →
        ∃ ws, formatFields rp slot tx (f :: rest)
            = some ⟨tx.block_size, tx.files, tx.pinned, tx.writes ++ ws⟩ ∧
          (∀ w' ∈ ws, w'.okToLog = false ∧ w'.block = rp.block) ∧
          ∀ g ∈ f :: rest, ∀ off, rp.layout.offset g = some off →
            ((rp.layout.schema.ftypeOf g = some .integer →
               (⟨rp.block, rp.offset slot + off, .intV 0, false⟩ : TxWrite) ∈ ws) ∧
             (rp.layout.schema.ftypeOf g = some .varchar →
               (⟨rp.block, rp.offset slot + off, .strV "", false⟩ : TxWrite) ∈ ws)) := by
      intro w hw hwok hwblk hwshape
      obtain ⟨ws', hrun, hflags, hmem⟩ :=
        ih ⟨tx.block_size, tx.files, tx.pinned, tx.writes ++ [w]⟩
          (fun g hg => hres g (by simp [hg])) hpin
      refine ⟨w :: ws', ?_, ?_, ?_⟩
      · rw [formatFields_cons, hoff0, optBind_some, hft0, optBind_some, hw, optBind_some,
          hrun]
        simp [List.append_assoc]
      · intro w' hw'
        rcases List.mem_cons.mp hw' with h1 | h2
        · subst h1
          exact ⟨hwok, hwblk⟩
        · exact hflags w' h2
      · intro g hg off hoff
        rcases List.mem_cons.mp hg with h1 | h2
        · subst h1
          have hoffeq : off = off0 := by
            rw [hoff0] at hoff
            exact (Option.some_inj.mp hoff).symm
          subst hoffeq
          constructor
          · intro hty
            rw [hft0] at hty
            have : ft0 = .integer := Option.some_inj.mp hty
            rw [hwshape.1 this]
            exact List.mem_cons_self _ _
          · intro hty
            rw [hft0] at hty
            have : ft0 = .varchar := Option.some_inj.mp hty
            rw [hwshape.2 this]
            exact List.mem_cons_self _ _
        · exact ⟨fun hty => List.mem_cons_of_mem _ ((hmem g h2 off hoff).1 hty),
            fun hty => List.mem_cons_of_mem _ ((hmem g h2 off hoff).2 hty)⟩
    cases ft0 with
    | integer =>
      refine hstep ⟨rp.block, rp.offset slot + off0, .intV 0, false⟩ ?_ rfl rfl
        ⟨fun _ => rfl, fun h => nomatch h⟩
      show tx.set_int rp.block (rp.offset slot + off0) 0 false = _
      unfold TxS.set_int
      rw [if_pos hpin]
    | varchar =>
      refine hstep ⟨rp.block, rp.offset slot + off0, .strV "", false⟩ ?_ rfl rfl
        ⟨(fun h => nomatch h), fun _ => rfl⟩
      show tx.set_string rp.block (rp.offset slot + off0) "" false = _
      unfold TxS.set_string
      rw [if_pos hpin]

theorem formatGo_spec (rp : RecordPageM)
    (hres : ∀ f ∈ rp.layout.schema.fields,
      (rp.layout.offset f).isSome ∧ (rp.layout.schema.ftypeOf f).isSome)
    (hslot : 1 ≤ rp.layout.slot_size) :
    ∀ (fuel : Nat) (slot : Int) (tx : TxS),
      rp.block ∈ tx.pinned → 0 ≤ slot →
      (tx.block_size - slot).toNat < fuel →
      ∃ ws, rp.formatGo fuel slot tx
          = some ⟨tx.block_size, tx.files, tx.pinned, tx.writes ++ ws⟩ ∧
        (∀ w ∈ ws, w.okToLog = false ∧ w.block = rp.block) ∧
        ∀ s : Int, slot ≤ s → rp.layout.slot_size * (s + 1) ≤ tx.block_size →
          ((⟨rp.block, rp.offset s, .intV 0, false⟩ : TxWrite) ∈ ws ∧
           ∀ f ∈ rp.layout.schema.fields, ∀ off, rp.layout.offset f = some off →
             ((rp.layout.schema.ftypeOf f = some .integer →
                (⟨rp.block, rp.offset s + off, .intV 0, false⟩ : TxWrite) ∈ ws) ∧
              (rp.layout.schema.ftypeOf f = some .varchar →
                (⟨rp.block, rp.offset s + off, .strV "", false⟩ : TxWrite) ∈ ws))) := by
  intro fuel
  induction fuel with
  | zero =>
    intro slot tx _ _ hfuel
    exact absurd hfuel (by omega)
  | succ fuel ih =>
    intro slot tx hpin hslot0 hfuel
    by_cases hv : rp.is_valid_slot tx slot
    · have hvLe : rp.layout.slot_size * (slot + 1) ≤ tx.block_size := by
        simpa [RecordPageM.is_valid_slot, RecordPageM.offset] using hv
      have hs1 : slot + 1 ≤ rp.layout.slot_size * (slot + 1) := by
        have h := mul_le_mul_of_nonneg_right hslot (show (0 : Int) ≤ slot + 1 by omega)
        simpa using h
      have hset : tx.set_int rp.block (rp.offset slot) 0 false
          = some ⟨tx.block_size, tx.files, tx.pinned,
              tx.writes ++ [⟨rp.block, rp.offset slot, .intV 0, false⟩]⟩ := by
        unfold TxS.set_int
        rw [if_pos hpin]
      obtain ⟨wsF, hrunF, hflagF, hmemF⟩ := formatFields_spec rp slot
        rp.layout.schema.fields
        ⟨tx.block_size, tx.files, tx.pinned,
          tx.writes ++ [⟨rp.block, rp.offset slot, .intV 0, false⟩]⟩ hres hpin
      obtain ⟨ws', hrun', hflag', hmem'⟩ := ih (slot + 1)
        ⟨tx.block_size, tx.files, tx.pinned,
          (tx.writes ++ [⟨rp.block, rp.offset slot, .intV 0, false⟩]) ++ wsF⟩
        hpin (by omega) (by show (tx.block_size - (slot + 1)).toNat < fuel; omega)
      refine ⟨⟨rp.block, rp.offset slot, .intV 0, false⟩ :: (wsF ++ ws'), ?_, ?_, ?_⟩
      · rw [formatGo_succ, if_pos hv, hset, optBind_some, hrunF, optBind_some, hrun']
        simp [List.append_assoc]
      · intro w hw
        rcases List.mem_cons.mp hw with h1 | h2
        · subst h1
          exact ⟨rfl, rfl⟩
        · rcases List.mem_append.mp h2 with h3 | h4
          · exact hflagF w h3
          · exact hflag' w h4
      · intro s hs hvs
        by_cases hse : s = slot
        · subst hse
          refine ⟨List.mem_cons_self _ _, ?_⟩
          intro f hf off hoff
          refine ⟨fun hty => ?_, fun hty => ?_⟩
          · exact List.mem_cons_of_mem _
              (List.mem_append.mpr (Or.inl ((hmemF f hf off hoff).1 hty)))
          · exact List.mem_cons_of_mem _
              (List.mem_append.mpr (Or.inl ((hmemF f hf off hoff).2 hty)))
        · have hs' : slot + 1 ≤ s := by omega
          obtain ⟨hflagmem, hfieldmem⟩ := hmem' s hs' hvs
          refine ⟨List.mem_cons_of_mem _ (List.mem_append.mpr (Or.inr hflagmem)), ?_⟩
          intro f hf off hoff
          refine ⟨fun hty => ?_, fun hty => ?_⟩
          · exact List.mem_cons_of_mem _
              (List.mem_append.mpr (Or.inr ((hfieldmem f hf off hoff).1 hty)))
          · exact List.mem_cons_of_mem _
              (List.mem_append.mpr (Or.inr ((hfieldmem f hf off hoff).2 hty)))
    · have hvGt : ¬ rp.layout.slot_size * (slot + 1) ≤ tx.block_size := by
        simpa [RecordPageM.is_valid_slot, RecordPageM.offset] using hv
      refine ⟨[], ?_, by simp, ?_⟩
      · rw [formatGo_succ, if_neg hv, List.append_nil]
      · intro s hs hvs
        exfalso
        have hmono : rp.layout.slot_size * (slot + 1) ≤ rp.layout.slot_size * (s + 1) :=
          mul_le_mul_of_nonneg_left (by omega) (by omega)
        omega

/-- C10: constructing a `TableScan` on a table whose backing file has
zero blocks appends one block (the file then has exactly one) and
formats it: positioned on the new block 0 at slot `-1`, the block
pinned, and with a batch of writes — all unlogged and all to the new
block — that set every valid slot's flag to `Empty` (0) and clear each
of its fields to `0` (integer) or `""` (varchar) at the field's layout
offset. -/
theorem table_scan_new_formats_fresh_block (tx : TxS) (name : String) (layout : Layout)
    (hsz : tx.size (name ++ ".tbl") = 0)
    (hslot : 1 ≤ layout.slot_size)
    (hres : ∀ f ∈ layout.schema.fields,
      (layout.offset f).isSome ∧ (layout.schema.ftypeOf f).isSome) :
    ∃ tx' : TxS,
      TableScanM.new tx name layout
        = some (⟨layout, some ⟨⟨name ++ ".tbl", 0⟩, layout⟩, name ++ ".tbl", -1⟩, tx') ∧
      tx'.block_size = tx.block_size ∧
      tx'.files = insertAssoc tx.files (name ++ ".tbl") 1 ∧
      tx'.pinned = tx.pinned ++ [⟨name ++ ".tbl", 0⟩] ∧
      ∃ ws, tx'.writes = tx.writes ++ ws ∧
        (∀ w ∈ ws, w.okToLog = false ∧ w.block = (⟨name ++ ".tbl", 0⟩ : BlockId)) ∧
        ∀ s : Int, 0 ≤ s → layout.slot_size * (s + 1) ≤ tx.block_size →
          ((⟨⟨name ++ ".tbl", 0⟩, layout.slot_size * s, .intV 0, false⟩ : TxWrite) ∈ ws ∧
           ∀ f ∈ layout.schema.fields, ∀ off, layout.offset f = some off →
             ((layout.schema.ftypeOf f = some .integer →
                (⟨⟨name ++ ".tbl", 0⟩, layout.slot_size * s + off, .intV 0, false⟩ :
                  TxWrite) ∈ ws) ∧
              (layout.schema.ftypeOf f = some .varchar →
                (⟨⟨name ++ ".tbl", 0⟩, layout.slot_size * s + off, .strV "", false⟩ :
                  TxWrite) ∈ ws))) := by
  obtain ⟨ws, hgo, hflags, hmem⟩ :=
    formatGo_spec (⟨⟨name ++ ".tbl", 0⟩, layout⟩ : RecordPageM) hres hslot
      (tx.block_size.toNat + 1) 0
      ⟨tx.block_size, insertAssoc tx.files (name ++ ".tbl") 1,
        tx.pinned ++ [⟨name ++ ".tbl", 0⟩], tx.writes⟩
      (by simp) (by omega) (by show (tx.block_size - 0).toNat < _; omega)
  refine ⟨⟨tx.block_size, insertAssoc tx.files (name ++ ".tbl") 1,
      tx.pinned ++ [⟨name ++ ".tbl", 0⟩], tx.writes ++ ws⟩,
    ?_, rfl, rfl, rfl, ws, rfl, hflags, ?_⟩
  · show TableScanM.new tx name layout = _
    unfold TableScanM.new
    rw [if_pos hsz]
    unfold TableScanM.move_to_new_block TableScanM.close TxS.append RecordPageM.new
      TxS.pin RecordPageM.format
    simp only [hsz, Nat.cast_zero]
    rw [show ((⟨⟨name ++ ".tbl", 0⟩, layout⟩ : RecordPageM).formatGo
        (tx.block_size.toNat + 1) 0
        ⟨tx.block_size, insertAssoc tx.files (name ++ ".tbl") 1,
          tx.pinned ++ [⟨name ++ ".tbl", 0⟩], tx.writes⟩) = _ from hgo]
    rfl
  · exact hmem

/-- Witness for the C10 theorem: block size 32, schema
`{A: int, B: varchar(9)}` (slot size 21, one valid slot), fresh empty
transaction state, table `t`. -/
theorem table_scan_new_witness :
    (TableScanM.new ⟨32, [], [], []⟩ "t"
        ((Layout.try_from_schema (Schema.ofDecls
          [("A", .integer, 0), ("B", .varchar, 9)])).getD ⟨⟨[], []⟩, [], 0⟩)).map
      (fun r => (r.1.current_slot, r.1.file_name, r.1.rp.map (fun rp => rp.block),
        r.2.block_size, r.2.files, r.2.pinned))
      = some (-1, "t.tbl", some ⟨"t.tbl", 0⟩, 32, [("t.tbl", 1)], [⟨"t.tbl", 0⟩]) := by
  obtain ⟨tx', hnew, hbs, hfiles, hpin, -⟩ :=
    table_scan_new_formats_fresh_block ⟨32, [], [], []⟩ "t"
      ((Layout.try_from_schema (Schema.ofDecls
        [("A", .integer, 0), ("B", .varchar, 9)])).getD ⟨⟨[], []⟩, [], 0⟩)
      (by decide) (by decide) (by decide)
  rw [hnew]
  simp only [Option.map_some']
  rw [hbs, hfiles, hpin]
  rfl

end TinyDB
